import Mathlib

/-!
# go_scraper: a verification development of `scraper.go`

Shallow embedding of the crawl engine of `scraper.go`:

* the pure helpers `contains`, `mapSlice`, `appendUnique`;
* the two `Each` loops of `parsePage` that read a parsed document;
* the goroutines of `parsePage` as an interleaving step function over an
  explicit state (`visitedPages`, the goroutines with their program counters and
  channels, the value received by `getProducts`, and whether `os.Exit` ran).
-/

namespace Scraper

/-! ## Data model -/

/-- Go: `type Product struct { Url, Image, Name, Price string }`. -/
structure Product where
  Url : String
  Image : String
  Name : String
  Price : String
deriving DecidableEq, Repr

/-! ## Pure helpers -/

/-- Go: `func contains(slice []string, element string) bool`. -/
def contains : List String → String → Bool
  | [], _ => false
  | item :: rest, element => if item = element then true else contains rest element

/-- Go: `func mapSlice[T any, M any](a []T, f func(T) M) []M`. -/
def mapSlice {T M : Type} : List T → (T → M) → List M
  | [], _ => []
  | e :: rest, f => f e :: mapSlice rest f

/-- The `for _, item := range newProducts` loop of `appendUnique`: `ret` is the
slice being built, `original` the slice the names are looked up in. -/
def appendUniqueLoop (original : List Product) : List Product → List Product → List Product
  | ret, [] => ret
  | ret, item :: rest =>
    if !contains (mapSlice original (fun p => p.Name)) item.Name then
      appendUniqueLoop original (ret ++ [item]) rest
    else
      appendUniqueLoop original ret rest

/-- Go: `func appendUnique(original []Product, newProducts []Product) []Product`:
`ret` starts as a copy of `original`, then the loop runs over `newProducts`. -/
def appendUnique (original newProducts : List Product) : List Product :=
  appendUniqueLoop original original newProducts

/-! ## The parsed document

`goquery` is an external library; a fetched and parsed document is represented by
what the two `Each` loops of `parsePage` read from it. -/

/-- One element selected by `doc.Find("#pagination a")`: the result of
`s.Attr("href")`, a value and whether the attribute exists. -/
structure Anchor where
  href : String
  exists_ : Bool
deriving DecidableEq, Repr

/-- One element selected by `doc.Find("li.product")`: the values read by the body
of the second `Each` loop (`url, existsHref`, `name`, `image, existsImage`,
`price`). -/
structure Fragment where
  url : String
  existsHref : Bool
  name : String
  image : String
  existsImage : Bool
  price : String
deriving DecidableEq, Repr

/-- A parsed document: the pagination anchors and the product entries, both in
document order. -/
structure Page where
  pagination : List Anchor
  products : List Fragment
deriving DecidableEq, Repr

/-- The site: `http.Get(page)` followed by `goquery.NewDocumentFromReader`. `none`
is a request that fails (`os.Exit(1)`) or a body that cannot be read as a document
(`log.Fatal`); both end the process. A site is a function: fetching a URL twice
gives the same document. -/
abbrev Site := String → Option Page

/-- The loop `doc.Find("#pagination a").Each(...)`, with `allPages` as accumulator. -/
def paginationLoop : List String → List Anchor → List String
  | allPages, [] => allPages
  | allPages, s :: rest =>
    if s.exists_ && !contains allPages s.href then
      paginationLoop (allPages ++ [s.href]) rest
    else
      paginationLoop allPages rest

/-- The value of `allPages` after the pagination loop (it starts as `[]string{}`). -/
def allPagesOf (doc : Page) : List String :=
  paginationLoop [] doc.pagination

/-- The loop `doc.Find("li.product").Each(...)`, with `retProducts` as accumulator. -/
def productLoop : List Product → List Fragment → List Product
  | retProducts, [] => retProducts
  | retProducts, s :: rest =>
    if s.existsHref && s.existsImage then
      productLoop
        (retProducts ++ [{ Name := s.name, Url := s.url, Image := s.image, Price := s.price }]) rest
    else
      productLoop retProducts rest

/-- The value of `retProducts` after the product loop (it starts as nil). -/
def ownProducts (doc : Page) : List Product :=
  productLoop [] doc.products

/-! ## The goroutines of `parsePage` -/

/-- Where a `parsePage` call stands. Every constructor is the point just before
one access to shared state (the `visitedPages` slice under its mutex, a channel,
the network, the goroutine table). -/
inductive PC where
  /-- Before `visitedMutex.Lock(); visitedPages = append(visitedPages, page)`. -/
  | start
  /-- Before `http.Get(page)`. -/
  | fetch
  /-- In `for _, p := range allPages`: `todo` is what is left of `allPages`,
  `unVisited` is `unVisitedPages` so far. -/
  | check (todo unVisited : List String) (ret : List Product)
  /-- In `for _, p := range unVisitedPages { go parsePage(...) }`: `todo` is what
  is left of `unVisitedPages`, `n` is `len(unVisitedPages)`. -/
  | spawn (todo : List String) (n : Nat) (ret : List Product)
  /-- In `for range unVisitedPages { pageProducts := <-allProducts ... }` with `n`
  iterations left. -/
  | recv (n : Nat) (ret : List Product)
  /-- Before `list <- retProducts`. -/
  | send (ret : List Product)
  /-- After the send: the call has returned. -/
  | done
deriving DecidableEq, Repr

/-- One `parsePage(list, page, depth)` call running as a goroutine. `parent` says
which channel `list` is: `some i` is the `allProducts` channel made by goroutine
`i`, `none` is the channel made by `getProducts`. `inbox` is the content of the
buffered channel `allProducts` this call made (oldest value first). -/
structure Goroutine where
  page : String
  depth : Nat
  parent : Option Nat
  pc : PC
  inbox : List (List Product)
deriving DecidableEq, Repr

/-- The state of the process during one `getProducts` call. -/
structure State where
  /-- The package variable `visitedPages`. -/
  visitedPages : List String
  /-- Every goroutine started so far, in the order of the `go` statements. -/
  gs : List Goroutine
  /-- What `getProducts` received from its channel, once it has. -/
  result : Option (List Product)
  /-- Whether `os.Exit(1)` has run. -/
  exited : Bool
deriving DecidableEq, Repr

/-- The state right after `go parsePage(allProducts, url, 0)` in `getProducts`,
with `visited` the value `visitedPages` has at that moment. -/
def getProductsInit (visited : List String) (url : String) : State :=
  { visitedPages := visited
    gs := [{ page := url, depth := 0, parent := none, pc := PC.start, inbox := [] }]
    result := none
    exited := false }

/-- Goroutine `i` gets a new program counter. -/
def setPC (gs : List Goroutine) (i : Nat) (g : Goroutine) (pc : PC) : List Goroutine :=
  gs.set i { g with pc := pc }

/-- The value `v` is put into the channel made by goroutine `j`. -/
def deliver (gs : List Goroutine) (j : Nat) (v : List Product) : List Goroutine :=
  match gs[j]? with
  | none => gs
  | some h => gs.set j { h with inbox := h.inbox ++ [v] }

/-- Goroutine `i` runs up to its next access to shared state; `none` when it
cannot run (no such goroutine, it has returned, it waits on an empty channel, or
the process has exited). -/
def step (site : Site) (s : State) (i : Nat) : Option State :=
  if s.exited then none else
  match s.gs[i]? with
  | none => none
  | some g =>
    match g.pc with
    | PC.start =>
      some { s with visitedPages := s.visitedPages ++ [g.page], gs := setPC s.gs i g PC.fetch }
    | PC.fetch =>
      match site g.page with
      | none => some { s with exited := true }
      | some doc =>
        if g.depth < 5 then
          some { s with gs := setPC s.gs i g (PC.check (allPagesOf doc) [] (ownProducts doc)) }
        else
          some { s with gs := setPC s.gs i g (PC.send (ownProducts doc)) }
    | PC.check (p :: todo) unVisited ret =>
      if contains s.visitedPages p then
        some { s with gs := setPC s.gs i g (PC.check todo unVisited ret) }
      else
        some { s with gs := setPC s.gs i g (PC.check todo (unVisited ++ [p]) ret) }
    | PC.check [] unVisited ret =>
      if unVisited.length > 0 then
        some { s with gs := setPC s.gs i g (PC.spawn unVisited unVisited.length ret) }
      else
        some { s with gs := setPC s.gs i g (PC.send ret) }
    | PC.spawn (p :: todo) n ret =>
      some { s with
        gs := setPC s.gs i g (PC.spawn todo n ret) ++
          [{ page := p, depth := g.depth + 1, parent := some i, pc := PC.start, inbox := [] }] }
    | PC.spawn [] n ret =>
      some { s with gs := setPC s.gs i g (PC.recv n ret) }
    | PC.recv (n + 1) ret =>
      match g.inbox with
      | [] => none
      | pageProducts :: rest =>
        some { s with
          gs := s.gs.set i { g with pc := PC.recv n (appendUnique ret pageProducts), inbox := rest } }
    | PC.recv 0 ret =>
      some { s with gs := setPC s.gs i g (PC.send ret) }
    | PC.send ret =>
      match g.parent with
      | none => some { s with result := some ret, gs := setPC s.gs i g PC.done }
      | some j => some { s with gs := deliver (setPC s.gs i g PC.done) j ret }
    | PC.done => none

/-- The goroutines run in the order given by `sched` (one entry per step, the
index of the goroutine that runs); `none` when an entry names a goroutine that
cannot run. -/
def run (site : Site) : List Nat → State → Option State
  | [], s => some s
  | i :: sched, s =>
    match step site s i with
    | none => none
    | some s' => run site sched s'

/-- The cases of `step`, one constructor per branch: `Step site s i g s'` says that
goroutine `i`, which is `g`, takes the state `s` to `s'`. -/
inductive Step (site : Site) (s : State) (i : Nat) (g : Goroutine) : State → Prop where
  | start (hpc : g.pc = PC.start) :
    Step site s i g
      { s with visitedPages := s.visitedPages ++ [g.page], gs := setPC s.gs i g PC.fetch }
  | exit (hpc : g.pc = PC.fetch) (hsite : site g.page = none) :
    Step site s i g { s with exited := true }
  | fetchInner (doc : Page) (hpc : g.pc = PC.fetch) (hsite : site g.page = some doc)
      (hd : g.depth < 5) :
    Step site s i g
      { s with gs := setPC s.gs i g (PC.check (allPagesOf doc) [] (ownProducts doc)) }
  | fetchDeepest (doc : Page) (hpc : g.pc = PC.fetch) (hsite : site g.page = some doc)
      (hd : ¬ g.depth < 5) :
    Step site s i g { s with gs := setPC s.gs i g (PC.send (ownProducts doc)) }
  | checkSeen (p : String) (todo unVisited : List String) (ret : List Product)
      (hpc : g.pc = PC.check (p :: todo) unVisited ret)
      (hv : contains s.visitedPages p = true) :
    Step site s i g { s with gs := setPC s.gs i g (PC.check todo unVisited ret) }
  | checkNew (p : String) (todo unVisited : List String) (ret : List Product)
      (hpc : g.pc = PC.check (p :: todo) unVisited ret)
      (hv : ¬ contains s.visitedPages p = true) :
    Step site s i g { s with gs := setPC s.gs i g (PC.check todo (unVisited ++ [p]) ret) }
  | checkEndSome (unVisited : List String) (ret : List Product)
      (hpc : g.pc = PC.check [] unVisited ret) (hlen : unVisited.length > 0) :
    Step site s i g
      { s with gs := setPC s.gs i g (PC.spawn unVisited unVisited.length ret) }
  | checkEndNone (unVisited : List String) (ret : List Product)
      (hpc : g.pc = PC.check [] unVisited ret) (hlen : ¬ unVisited.length > 0) :
    Step site s i g { s with gs := setPC s.gs i g (PC.send ret) }
  | spawn (p : String) (todo : List String) (n : Nat) (ret : List Product)
      (hpc : g.pc = PC.spawn (p :: todo) n ret) :
    Step site s i g
      { s with
        gs := setPC s.gs i g (PC.spawn todo n ret) ++
          [{ page := p, depth := g.depth + 1, parent := some i, pc := PC.start, inbox := [] }] }
  | spawnEnd (n : Nat) (ret : List Product) (hpc : g.pc = PC.spawn [] n ret) :
    Step site s i g { s with gs := setPC s.gs i g (PC.recv n ret) }
  | recv (n : Nat) (ret pageProducts : List Product) (rest : List (List Product))
      (hpc : g.pc = PC.recv (n + 1) ret) (hin : g.inbox = pageProducts :: rest) :
    Step site s i g
      { s with
        gs := s.gs.set i { g with pc := PC.recv n (appendUnique ret pageProducts), inbox := rest } }
  | recvEnd (ret : List Product) (hpc : g.pc = PC.recv 0 ret) :
    Step site s i g { s with gs := setPC s.gs i g (PC.send ret) }
  | sendRoot (ret : List Product) (hpc : g.pc = PC.send ret) (hpar : g.parent = none) :
    Step site s i g { s with result := some ret, gs := setPC s.gs i g PC.done }
  | sendChild (ret : List Product) (j : Nat) (hpc : g.pc = PC.send ret)
      (hpar : g.parent = some j) :
    Step site s i g { s with gs := deliver (setPC s.gs i g PC.done) j ret }

/-- A link path: `Reach site root d p` says that `p` is reached from `root` by a
chain of exactly `d` pagination links of successfully fetched pages. -/
inductive Reach (site : Site) (root : String) : Nat → String → Prop where
  | root : Reach site root 0 root
  | link (d : Nat) (p l : String) (doc : Page) (hp : Reach site root d p)
      (hsite : site p = some doc) (hl : l ∈ allPagesOf doc) : Reach site root (d + 1) l

/-- The program counter part of `Step`: `PcStep site visited page depth pc pc'` says
that a call for `page` at `depth` standing at `pc` stands at `pc'` after its step,
when `visitedPages` is `visited`. -/
inductive PcStep (site : Site) (visited : List String) (page : String) (depth : Nat) :
    PC → PC → Prop where
  | start : PcStep site visited page depth PC.start PC.fetch
  | exit (hsite : site page = none) : PcStep site visited page depth PC.fetch PC.fetch
  | fetchInner (doc : Page) (hsite : site page = some doc) (hd : depth < 5) :
    PcStep site visited page depth PC.fetch (PC.check (allPagesOf doc) [] (ownProducts doc))
  | fetchDeepest (doc : Page) (hsite : site page = some doc) (hd : ¬ depth < 5) :
    PcStep site visited page depth PC.fetch (PC.send (ownProducts doc))
  | checkSeen (p : String) (todo unVisited : List String) (ret : List Product)
      (hv : contains visited p = true) :
    PcStep site visited page depth (PC.check (p :: todo) unVisited ret)
      (PC.check todo unVisited ret)
  | checkNew (p : String) (todo unVisited : List String) (ret : List Product)
      (hv : ¬ contains visited p = true) :
    PcStep site visited page depth (PC.check (p :: todo) unVisited ret)
      (PC.check todo (unVisited ++ [p]) ret)
  | checkEndSome (unVisited : List String) (ret : List Product) (hlen : unVisited.length > 0) :
    PcStep site visited page depth (PC.check [] unVisited ret)
      (PC.spawn unVisited unVisited.length ret)
  | checkEndNone (unVisited : List String) (ret : List Product) (hlen : ¬ unVisited.length > 0) :
    PcStep site visited page depth (PC.check [] unVisited ret) (PC.send ret)
  | spawn (p : String) (todo : List String) (n : Nat) (ret : List Product) :
    PcStep site visited page depth (PC.spawn (p :: todo) n ret) (PC.spawn todo n ret)
  | spawnEnd (n : Nat) (ret : List Product) :
    PcStep site visited page depth (PC.spawn [] n ret) (PC.recv n ret)
  | recv (n : Nat) (ret pageProducts : List Product) :
    PcStep site visited page depth (PC.recv (n + 1) ret)
      (PC.recv n (appendUnique ret pageProducts))
  | recvEnd (ret : List Product) :
    PcStep site visited page depth (PC.recv 0 ret) (PC.send ret)
  | send (ret : List Product) : PcStep site visited page depth (PC.send ret) PC.done

/-- What holds of a call for `page` at `depth` standing at a program counter: past
the fetch the page was fetched, the loops run only below depth 5 and over links
of the page, and `ret` is still the page's own products until the first receive. -/
def PcOk (site : Site) (page : String) (depth : Nat) : PC → Prop
  | PC.start => True
  | PC.fetch => True
  | PC.check todo unVisited ret =>
    depth < 5 ∧ ∃ doc, site page = some doc ∧ ret = ownProducts doc ∧
      (∀ l ∈ todo, l ∈ allPagesOf doc) ∧ (∀ l ∈ unVisited, l ∈ allPagesOf doc)
  | PC.spawn todo _ ret =>
    depth < 5 ∧ ∃ doc, site page = some doc ∧ ret = ownProducts doc ∧
      (∀ l ∈ todo, l ∈ allPagesOf doc)
  | PC.recv _ _ => depth < 5 ∧ ∃ doc, site page = some doc
  | PC.send ret => ∃ doc, site page = some doc ∧ (depth = 5 → ret = ownProducts doc)
  | PC.done => ∃ doc, site page = some doc

/-- The shape of the goroutine table during `getProducts(root)`: goroutine 0 is the
call for `root` at depth 0 and the only one that sends to `getProducts`; every
other goroutine was started by an earlier one, one level deeper; no depth exceeds
5; every page is reached from `root` by as many links as its depth. -/
structure Wf (site : Site) (root : String) (s : State) : Prop where
  root_ : ∃ g0, s.gs[0]? = some g0 ∧ g0.page = root ∧ g0.depth = 0 ∧ g0.parent = none
  each : ∀ j g, s.gs[j]? = some g →
    g.depth ≤ 5 ∧ Reach site root g.depth g.page ∧ PcOk site g.page g.depth g.pc ∧
      (g.parent = none → j = 0) ∧
      ∀ i, g.parent = some i → i < j ∧ ∃ h, s.gs[i]? = some h ∧ h.depth + 1 = g.depth

/-- Whether a call has returned. -/
def isDone : PC → Bool
  | PC.done => true
  | _ => false

/-- Whether `h` is a call that will still send to the channel made by goroutine `k`. -/
def counted (k : Nat) (h : Goroutine) : Bool :=
  decide (h.parent = some k) && !isDone h.pc

/-- The number of goroutines that will still send to the channel made by goroutine
`k`. -/
def pending (gs : List Goroutine) (k : Nat) : Nat :=
  gs.countP (counted k)

/-- The account of the channel made by goroutine `j`, which is `g`: the receives
still to do are the values in the channel plus the children still to send plus the
children still to start; outside its spawn and receive loops a call has no child
that still runs and nothing in its channel. -/
def ChanOk (gs : List Goroutine) (j : Nat) (g : Goroutine) : Prop :=
  match g.pc with
  | PC.spawn todo n _ => pending gs j + g.inbox.length + todo.length = n
  | PC.recv n _ => pending gs j + g.inbox.length = n
  | _ => pending gs j = 0 ∧ g.inbox = []

/-- The channel accounts of a state, and what `getProducts` and `os.Exit` have
done: `getProducts` has its value exactly when goroutine 0 has returned, and the
process has exited only by a failed fetch. -/
structure ChanInv (site : Site) (s : State) : Prop where
  chan : ∀ (j : Nat) (g : Goroutine), s.gs[j]? = some g → ChanOk s.gs j g
  res : ∀ g0 : Goroutine, s.gs[0]? = some g0 → (s.result.isSome = isDone g0.pc)
  exit_ : s.exited = true →
    ∃ (j : Nat) (g : Goroutine), s.gs[j]? = some g ∧ g.pc = PC.fetch ∧ site g.page = none

/-- The links a call still has in hand: not yet looked up, or found unvisited and
not yet started. -/
def pendingLinks : PC → List String
  | PC.check todo unVisited _ => todo ++ unVisited
  | PC.spawn todo _ _ => todo
  | _ => []

/-- A URL is covered when it is in `visitedPages` or some `parsePage` call was
started for it. -/
def Covered (s : State) (l : String) : Prop :=
  l ∈ s.visitedPages ∨ ∃ (j : Nat) (g : Goroutine), s.gs[j]? = some g ∧ g.page = l

/-- The bookkeeping of `visitedPages` during a `getProducts` call entered with
`visitedPages = pre`: a call past its first statement has its page in
`visitedPages`; every entry beyond `pre` is the page of such a call; and every link
of a page processed below depth 5 is in the call's hands or covered. -/
structure CoverInv (site : Site) (pre : List String) (s : State) : Prop where
  started : ∀ (j : Nat) (g : Goroutine), s.gs[j]? = some g → g.pc ≠ PC.start →
    g.page ∈ s.visitedPages
  origin : ∀ p ∈ s.visitedPages,
    p ∈ pre ∨ ∃ (j : Nat) (g : Goroutine), s.gs[j]? = some g ∧ g.page = p ∧ g.pc ≠ PC.start
  links : ∀ (j : Nat) (g : Goroutine) (doc : Page), s.gs[j]? = some g →
    site g.page = some doc → g.depth < 5 → g.pc ≠ PC.start → g.pc ≠ PC.fetch →
    ∀ l ∈ allPagesOf doc, l ∈ pendingLinks g.pc ∨ Covered s l

/-- A link path that the depth limit cannot cut: `ReachBelow site root p` says that
`p` is `root`, or a link of `root`, or a link of a page that is itself so reached
and that no chain of exactly 5 links reaches from `root` (so that no call for it
runs at depth 5). -/
inductive ReachBelow (site : Site) (root : String) : String → Prop where
  | root : ReachBelow site root root
  | first (l : String) (doc : Page) (hsite : site root = some doc) (hl : l ∈ allPagesOf doc) :
    ReachBelow site root l
  | link (p l : String) (doc : Page) (hp : ReachBelow site root p)
      (h5 : ¬ Reach site root 5 p) (hsite : site p = some doc) (hl : l ∈ allPagesOf doc) :
    ReachBelow site root l

/-- The product built from a product entry: the struct literal
`Product{Name: name, Url: url, Image: image, Price: price}` of `parsePage`. -/
def fragmentProduct (f : Fragment) : Product :=
  { Name := f.name, Url := f.url, Image := f.image, Price := f.price }

/-- A product comes from the site when some page of the site has a product entry
with both attributes (`href` and image `src`) from which it is built. -/
def Scraped (site : Site) (x : Product) : Prop :=
  ∃ (url : String) (doc : Page) (f : Fragment), site url = some doc ∧ f ∈ doc.products ∧
    f.existsHref = true ∧ f.existsImage = true ∧ x = fragmentProduct f

/-- The value of `retProducts` at a program counter. -/
def retOf : PC → List Product
  | PC.check _ _ ret => ret
  | PC.spawn _ _ ret => ret
  | PC.recv _ ret => ret
  | PC.send ret => ret
  | _ => []

/-- Every product held anywhere (in a `retProducts`, in a channel, in the value of
`getProducts`) comes from the site. -/
structure ProdInv (site : Site) (s : State) : Prop where
  ret : ∀ (j : Nat) (g : Goroutine), s.gs[j]? = some g → ∀ x ∈ retOf g.pc, Scraped site x
  inbox : ∀ (j : Nat) (g : Goroutine), s.gs[j]? = some g →
    ∀ v ∈ g.inbox, ∀ x ∈ v, Scraped site x
  res : ∀ r, s.result = some r → ∀ x ∈ r, Scraped site x

/-- The states of a `getProducts(root)` call in which the root call is alone:
entered with `visitedPages = pre`, when every link of the root page is in `pre`;
`own` is the list of the root page's own products. -/
def SoloOk (root : String) (pre : List String) (own : List Product) (s : State) : Prop :=
  ∃ g, s.gs = [g] ∧ g.page = root ∧ g.depth = 0 ∧ g.parent = none ∧
    (∀ p ∈ pre, p ∈ s.visitedPages) ∧
    match g.pc with
    | PC.start => s.result = none
    | PC.fetch => s.result = none
    | PC.check todo unVisited ret =>
      (∀ l ∈ todo, l ∈ pre) ∧ unVisited = [] ∧ ret = own ∧ s.result = none
    | PC.send ret => ret = own ∧ s.result = none
    | PC.done => s.result = some own
    | _ => False

/-- The links a call has found unvisited and not yet started a call for. -/
def newLinks : PC → List String
  | PC.check _ unVisited _ => unVisited
  | PC.spawn todo _ _ => todo
  | _ => []

/-- What `visitedPages` on entry (`pre`) means for the run: it is only appended to,
and no child call is made for a URL of `pre`. -/
structure FreshInv (pre : List String) (s : State) : Prop where
  grows : ∃ added, s.visitedPages = pre ++ added
  fresh : ∀ (j : Nat) (g : Goroutine), s.gs[j]? = some g →
    (g.parent ≠ none → g.page ∉ pre) ∧ ∀ l ∈ newLinks g.pc, l ∉ pre

/-- The value that the step of goroutine `k` in state `s` puts into the channel made
by goroutine `i`: `[ret]` when `k` stands before `list <- retProducts` and `list` is
that channel, nothing otherwise. -/
def sentTo (s : State) (k i : Nat) : List (List Product) :=
  match s.gs[k]? with
  | none => []
  | some g =>
    match g.pc, g.parent with
    | PC.send ret, some j => if j = i then [ret] else []
    | _, _ => []

/-- The values put into the channel made by goroutine `i` during the run of `sched`
from `s`, in the order of the sends: the collections returned by the children of
goroutine `i`, in completion order. -/
def deliveries (site : Site) (i : Nat) : List Nat → State → List (List Product)
  | [], _ => []
  | k :: sched, s =>
    match step site s k with
    | none => []
    | some s' => sentTo s k i ++ deliveries site i sched s'

/-- The relation between a call and the values `H` put into its channel so far:
before the receive loop `retProducts` is the page's own products and the channel
holds all of `H`; in the loop `retProducts` is the merge of the own products with
the values received, in the order of `H`; at the final send it is the merge with
all of `H`. -/
def TraceOk (site : Site) (H : List (List Product)) (g : Goroutine) : Prop :=
  match g.pc with
  | PC.start => H = [] ∧ g.inbox = []
  | PC.fetch => H = [] ∧ g.inbox = []
  | PC.check _ _ ret => g.inbox = H ∧ ∀ doc, site g.page = some doc → ret = ownProducts doc
  | PC.spawn _ _ ret => g.inbox = H ∧ ∀ doc, site g.page = some doc → ret = ownProducts doc
  | PC.recv _ ret =>
    ∃ ds, ds ++ g.inbox = H ∧
      ∀ doc, site g.page = some doc → ret = ds.foldl appendUnique (ownProducts doc)
  | PC.send ret =>
    g.inbox = [] ∧ ∀ doc, site g.page = some doc → ret = H.foldl appendUnique (ownProducts doc)
  | PC.done => True

/-- The relation `TraceOk` for goroutine `i` of a state (nothing was sent to a
goroutine that does not exist yet), and, for goroutine 0, the value of
`getProducts`. -/
structure TraceInv (site : Site) (root : String) (i : Nat) (H : List (List Product))
    (s : State) : Prop where
  absent : s.gs[i]? = none → H = []
  present : ∀ g : Goroutine, s.gs[i]? = some g → TraceOk site H g
  res : i = 0 → ∀ r, s.result = some r → ∀ doc, site root = some doc →
    r = H.foldl appendUnique (ownProducts doc)

/-- A bound on the number of steps of a call for page `p` and of all the calls
below it, when `fuel` levels are left under the depth limit. -/
def callCost (site : Site) : Nat → String → Nat
  | 0 => fun _ => 3
  | fuel + 1 => fun p =>
    match site p with
    | none => 2
    | some doc =>
      3 * ((allPagesOf doc).length + 1) + 3 + ((allPagesOf doc).map (callCost site fuel)).sum

/-- A bound on the number of steps that a call, and the calls it will still start,
have left. -/
def remaining (site : Site) (g : Goroutine) : Nat :=
  match g.pc with
  | PC.start => callCost site (5 - g.depth) g.page
  | PC.fetch => callCost site (5 - g.depth) g.page - 1
  | PC.check todo unVisited _ =>
    (todo.length + 1) + 2 * (todo.length + unVisited.length + 1) + 1 +
      ((todo ++ unVisited).map (callCost site (5 - g.depth - 1))).sum
  | PC.spawn todo n _ =>
    (todo.length + 1) + (n + 1) + 1 + (todo.map (callCost site (5 - g.depth - 1))).sum
  | PC.recv n _ => n + 2
  | PC.send _ => 1
  | PC.done => 0

/-- A bound on the number of steps left in a state. -/
def total (site : Site) (s : State) : Nat :=
  (s.gs.map (remaining site)).sum + (if s.exited then 0 else 1)

/-- The value that the step of goroutine `k` in state `s` sends: `[ret]` when `k`
stands before `list <- retProducts`, nothing otherwise. -/
def sentBy (s : State) (k : Nat) : List (List Product) :=
  match s.gs[k]? with
  | none => []
  | some g =>
    match g.pc with
    | PC.send ret => [ret]
    | _ => []

/-- The values that goroutine `i` sends during the run of `sched` from `s`: what the
`parsePage` call returns to its caller. -/
def returned (site : Site) (i : Nat) : List Nat → State → List (List Product)
  | [], _ => []
  | k :: sched, s =>
    match step site s k with
    | none => []
    | some s' => (if k = i then sentBy s k else []) ++ returned site i sched s'

/-- The relation between a call, the values `H` put into its channel so far and the
values `R` it has sent so far: nothing before it has returned, and once it has
returned exactly one list, the merge of the page's own products with `H`. -/
structure RetInv (site : Site) (i : Nat) (H R : List (List Product)) (s : State) : Prop where
  absent : s.gs[i]? = none → R = []
  running : ∀ g : Goroutine, s.gs[i]? = some g → g.pc ≠ PC.done → R = []
  done : ∀ g : Goroutine, s.gs[i]? = some g → g.pc = PC.done →
    ∀ doc, site g.page = some doc → R = [H.foldl appendUnique (ownProducts doc)]

/-! ## Example sites -/

/-- A product entry with a link and an image. -/
def item (name : String) : Fragment :=
  { url := "/p/" ++ name, existsHref := true, name := name, image := "/img/" ++ name,
    existsImage := true, price := "$1" }

/-- The product that `parsePage` builds from `item name`. -/
def itemProduct (name : String) : Product :=
  { Url := "/p/" ++ name, Image := "/img/" ++ name, Name := name, Price := "$1" }

/-- A page with the given pagination links and one valid product entry per name. -/
def listing (links names : List String) : Page :=
  { pagination := links.map (fun l => { href := l, exists_ := true }),
    products := names.map item }

/-- A chain of pages `0 -> 1 -> ... -> 6`, each with one product. -/
def chainSite : Site := fun u =>
  if u = "0" then some (listing ["1"] ["p0"])
  else if u = "1" then some (listing ["2"] ["p1"])
  else if u = "2" then some (listing ["3"] ["p2"])
  else if u = "3" then some (listing ["4"] ["p3"])
  else if u = "4" then some (listing ["5"] ["p4"])
  else if u = "5" then some (listing ["6"] ["p5"])
  else if u = "6" then some (listing [] ["p6"])
  else none

/-- A root with two children `b` and `c` that both link to `d`. -/
def diamondSite : Site := fun u =>
  if u = "r" then some (listing ["b", "c"] ["pr"])
  else if u = "b" then some (listing ["d"] ["pb"])
  else if u = "c" then some (listing ["d"] ["pc"])
  else if u = "d" then some (listing [] ["pd"])
  else none

/-- A root with two children `b` and `c` without links. -/
def forkSite : Site := fun u =>
  if u = "r" then some (listing ["b", "c"] ["pr"])
  else if u = "b" then some (listing [] ["pb"])
  else if u = "c" then some (listing [] ["pc"])
  else none

/-- The site `forkSite` with the request for `b` failing. -/
def brokenSite : Site := fun u =>
  if u = "b" then none else forkSite u

/-- A root page without pagination links: three valid product entries and, in
third place, one without image. -/
def leafSite : Site := fun u =>
  if u = "r" then
    some { pagination := [],
           products := [item "a", item "b",
             { url := "/p/c", existsHref := true, name := "c", image := "", existsImage := false,
               price := "$1" },
             item "d"] }
  else none

/-- On `chainSite`: every call runs as far as it can, in the order of creation. -/
def chainSched : List Nat :=
  List.replicate 6 0 ++ List.replicate 6 1 ++ List.replicate 6 2 ++ List.replicate 6 3 ++
    List.replicate 6 4 ++ List.replicate 3 5 ++ List.replicate 3 4 ++ List.replicate 3 3 ++
    List.replicate 3 2 ++ List.replicate 3 1 ++ List.replicate 3 0

/-- On `diamondSite`: `b` (goroutine 1) and `c` (goroutine 2) both look `d` up before
either of the calls for `d` (goroutines 3 and 4) has run its first statement. -/
def diamondSched : List Nat :=
  List.replicate 8 0 ++ List.replicate 6 1 ++ List.replicate 6 2 ++ List.replicate 4 3 ++
    List.replicate 3 1 ++ List.replicate 1 0 ++ List.replicate 4 4 ++ List.replicate 3 2 ++
    List.replicate 3 0

/-- On `forkSite`: the call for `b` (goroutine 1) sends before the call for `c`
(goroutine 2) starts. -/
def forkSchedBC : List Nat :=
  List.replicate 8 0 ++ List.replicate 4 1 ++ List.replicate 1 0 ++ List.replicate 4 2 ++
    List.replicate 3 0

/-- On `forkSite`: the call for `c` (goroutine 2) sends before the call for `b`
(goroutine 1) starts. -/
def forkSchedCB : List Nat :=
  List.replicate 8 0 ++ List.replicate 4 2 ++ List.replicate 1 0 ++ List.replicate 4 1 ++
    List.replicate 3 0

/-- The state of `forkSite` after `forkSchedBC`. -/
def forkFinal : State :=
  { visitedPages := ["r", "b", "c"]
    gs := [{ page := "r", depth := 0, parent := none, pc := PC.done, inbox := [] },
           { page := "b", depth := 1, parent := some 0, pc := PC.done, inbox := [] },
           { page := "c", depth := 1, parent := some 0, pc := PC.done, inbox := [] }]
    result := some [itemProduct "pr", itemProduct "pb", itemProduct "pc"]
    exited := false }

/-- On `brokenSite`: the call for `c` (goroutine 2) returns, the root receives its
products, then the call for `b` (goroutine 1) runs into the failing request. -/
def brokenSched : List Nat :=
  List.replicate 8 0 ++ List.replicate 4 2 ++ List.replicate 1 0 ++ List.replicate 2 1

/-- The state of `brokenSite` after `brokenSched`. -/
def brokenFinal : State :=
  { visitedPages := ["r", "c", "b"]
    gs := [{ page := "r", depth := 0, parent := none,
             pc := PC.recv 1 [itemProduct "pr", itemProduct "pc"], inbox := [] },
           { page := "b", depth := 1, parent := some 0, pc := PC.fetch, inbox := [] },
           { page := "c", depth := 1, parent := some 0, pc := PC.done, inbox := [] }]
    result := none
    exited := true }

/-- The only schedule of a root call that starts no child and finds three links
visited: first statement, fetch, three lookups, end of the lookup loop, send. -/
def soloSched : List Nat :=
  List.replicate 6 0

/-- The state of `forkSite` after a second `getProducts("r")`, entered with the
`visitedPages` that `forkFinal` has left. -/
def secondFinal : State :=
  { visitedPages := ["r", "b", "c", "r"]
    gs := [{ page := "r", depth := 0, parent := none, pc := PC.done, inbox := [] }]
    result := some [itemProduct "pr"]
    exited := false }

/-- The state of `forkSite` after `forkSchedCB`. -/
def forkFinalCB : State :=
  { visitedPages := ["r", "c", "b"]
    gs := [{ page := "r", depth := 0, parent := none, pc := PC.done, inbox := [] },
           { page := "b", depth := 1, parent := some 0, pc := PC.done, inbox := [] },
           { page := "c", depth := 1, parent := some 0, pc := PC.done, inbox := [] }]
    result := some [itemProduct "pr", itemProduct "pc", itemProduct "pb"]
    exited := false }

theorem contains_iff (slice : List String) (element : String) :
    contains slice element = true ↔ element ∈ slice := by
  induction slice with
  | nil => simp [contains]
  | cons item rest ih =>
    by_cases h : item = element
    · simp [contains, h]
    · have h2 : ¬ element = item := fun e => h e.symm
      simp [contains, h, h2, ih]

theorem mapSlice_eq_map {T M : Type} (a : List T) (f : T → M) : mapSlice a f = a.map f := by
  induction a with
  | nil => rfl
  | cons e rest ih => simp [mapSlice, ih]

theorem appendUniqueLoop_eq (original : List Product) (ret newProducts : List Product) :
    appendUniqueLoop original ret newProducts =
      ret ++ newProducts.filter (fun i => !contains (mapSlice original (fun p => p.Name)) i.Name) := by
  induction newProducts generalizing ret with
  | nil => simp [appendUniqueLoop]
  | cons item rest ih =>
    by_cases h : contains (mapSlice original (fun p => p.Name)) item.Name = true
    · simp [appendUniqueLoop, h, ih]
    · simp [appendUniqueLoop, h, ih]

theorem appendUnique_eq (original newProducts : List Product) :
    appendUnique original newProducts =
      original ++ newProducts.filter (fun i => !contains (mapSlice original (fun p => p.Name)) i.Name) :=
  appendUniqueLoop_eq original original newProducts

theorem mem_appendUnique (original newProducts : List Product) (x : Product) :
    x ∈ appendUnique original newProducts ↔
      x ∈ original ∨ (x ∈ newProducts ∧ x.Name ∉ original.map (fun p => p.Name)) := by
  rw [appendUnique_eq]
  simp only [List.mem_append, List.mem_filter, Bool.not_eq_true', mapSlice_eq_map]
  constructor
  · rintro (h | ⟨h1, h2⟩)
    · exact Or.inl h
    · refine Or.inr ⟨h1, fun hm => ?_⟩
      rw [(contains_iff _ _).mpr hm] at h2
      exact Bool.noConfusion h2
  · rintro (h | ⟨h1, h2⟩)
    · exact Or.inl h
    · refine Or.inr ⟨h1, ?_⟩
      cases hc : contains (original.map (fun p => p.Name)) x.Name with
      | false => rfl
      | true => exact absurd ((contains_iff _ _).mp hc) h2

/-! ## The merge `appendUnique` -/

/-- C1: `appendUnique base addition` is `base` followed by exactly those items of
`addition` whose `Name` is not a `Name` of `base`, in their original order; so
every item of `base`, and every item of `addition` whose name is absent from
`base`, is in the result. -/
theorem appendUnique_spec (base addition : List Product) :
    appendUnique base addition =
        base ++ addition.filter (fun i => decide (i.Name ∉ base.map (fun p => p.Name))) ∧
      (∀ x ∈ base, x ∈ appendUnique base addition) ∧
      (∀ x ∈ addition, x.Name ∉ base.map (fun p => p.Name) → x ∈ appendUnique base addition) := by
  refine ⟨?_, fun x hx => (mem_appendUnique _ _ _).mpr (Or.inl hx),
    fun x hx hn => (mem_appendUnique _ _ _).mpr (Or.inr ⟨hx, hn⟩)⟩
  rw [appendUnique_eq, mapSlice_eq_map]
  congr 1
  apply List.filter_congr
  intro x _
  cases hc : contains (base.map (fun p => p.Name)) x.Name with
  | false =>
    have : x.Name ∉ base.map (fun p => p.Name) := fun hm => by
      rw [(contains_iff _ _).mpr hm] at hc
      exact Bool.noConfusion hc
    simp [this]
  | true =>
    have : x.Name ∈ base.map (fun p => p.Name) := (contains_iff _ _).mp hc
    simp [this]

/-- C4, as stated, fails: when the second list holds two items of one name that
is not in the first list, both are appended, and two items of one name in the
first list are both kept. -/
theorem appendUnique_duplicate_names :
    ¬ ((appendUnique []
          [{ Url := "u1", Image := "i1", Name := "n", Price := "1" },
           { Url := "u2", Image := "i2", Name := "n", Price := "2" }]).map
        (fun p => p.Name)).Nodup ∧
    ¬ ((appendUnique
          [{ Url := "u1", Image := "i1", Name := "n", Price := "1" },
           { Url := "u2", Image := "i2", Name := "n", Price := "2" }] []).map
        (fun p => p.Name)).Nodup := by
  constructor <;> decide

/-- C4, amended: for every `A` and `B`, `appendUnique A B` starts with `A` copied
unchanged, and every item placed after that copy is an item of `B` whose `Name` no
item of `A` has; and when no two items of `A` share a `Name` and no two items of
`B` share a `Name`, no two items of `appendUnique A B` (at different positions)
share a `Name`. -/
theorem appendUnique_names_nodup (A B : List Product) :
    (appendUnique A B).take A.length = A ∧
    (∀ x ∈ (appendUnique A B).drop A.length, x ∈ B ∧ x.Name ∉ A.map (fun p => p.Name)) ∧
    ((A.map (fun p => p.Name)).Nodup → (B.map (fun p => p.Name)).Nodup →
      ((appendUnique A B).map (fun p => p.Name)).Nodup) := by
  have hdrop : (appendUnique A B).drop A.length =
      B.filter (fun i => !contains (mapSlice A (fun p => p.Name)) i.Name) := by
    rw [appendUnique_eq]; simp
  refine ⟨by rw [appendUnique_eq]; simp, ?_, ?_⟩
  · intro x hx
    rw [hdrop] at hx
    obtain ⟨hx1, hx2⟩ := List.mem_filter.mp hx
    refine ⟨hx1, fun hn => ?_⟩
    rw [mapSlice_eq_map, (contains_iff _ _).mpr hn] at hx2
    exact Bool.noConfusion hx2
  · intro hA hB
    rw [appendUnique_eq, List.map_append, List.nodup_append]
    refine ⟨hA, ?_, ?_⟩
    · exact List.Nodup.sublist (List.Sublist.map _ (List.filter_sublist _)) hB
    · intro n hn1 hn2
      obtain ⟨x, hx, rfl⟩ := List.mem_map.mp hn2
      have hx2 := (List.mem_filter.mp hx).2
      rw [mapSlice_eq_map, (contains_iff _ _).mpr hn1] at hx2
      exact Bool.noConfusion hx2

/-- An instance of the amended C4: one item of `B` repeats the name of `A`, one is new. -/
theorem appendUnique_names_nodup_witness :
    ([({ Url := "u1", Image := "i1", Name := "a", Price := "1" } : Product)].map
        (fun p => p.Name)).Nodup ∧
    ([({ Url := "u2", Image := "i2", Name := "a", Price := "2" } : Product),
      { Url := "u3", Image := "i3", Name := "b", Price := "3" }].map (fun p => p.Name)).Nodup ∧
    ((appendUnique
        [{ Url := "u1", Image := "i1", Name := "a", Price := "1" }]
        [{ Url := "u2", Image := "i2", Name := "a", Price := "2" },
         { Url := "u3", Image := "i3", Name := "b", Price := "3" }]).map
      (fun p => p.Name)).Nodup :=
  ⟨by decide, by decide,
    (appendUnique_names_nodup
      [{ Url := "u1", Image := "i1", Name := "a", Price := "1" }]
      [{ Url := "u2", Image := "i2", Name := "a", Price := "2" },
       { Url := "u3", Image := "i3", Name := "b", Price := "3" }]).2.2 (by decide) (by decide)⟩

/-- C10: `appendUnique A A` is `A` itself (no item is added, since every name of
`A` is a name of `A`), so it is a permutation of `A`. -/
theorem appendUnique_self (A : List Product) :
    appendUnique A A = A ∧ (appendUnique A A).Perm A := by
  have h : appendUnique A A = A := by
    rw [appendUnique_eq, mapSlice_eq_map]
    have : A.filter (fun i => !contains (A.map (fun p => p.Name)) i.Name) = [] := by
      rw [List.filter_eq_nil_iff]
      intro x hx
      have : x.Name ∈ A.map (fun p => p.Name) := List.mem_map.mpr ⟨x, hx, rfl⟩
      simp [(contains_iff _ _).mpr this]
    rw [this, List.append_nil]
  exact ⟨h, by rw [h]⟩

/-! ## The step function and its cases -/

theorem step_sound {site : Site} {s s' : State} {i : Nat} (h : step site s i = some s') :
    s.exited = false ∧ ∃ g, s.gs[i]? = some g ∧ Step site s i g s' := by
  unfold step at h
  split at h
  · exact Option.noConfusion h
  · rename_i hex
    refine ⟨by simpa using hex, ?_⟩
    split at h
    · exact Option.noConfusion h
    · rename_i g hg
      refine ⟨g, hg, ?_⟩
      split at h
      · rename_i hpc
        cases h; exact Step.start hpc
      · rename_i hpc
        split at h
        · rename_i hsite
          cases h; exact Step.exit hpc hsite
        · rename_i doc hsite
          split at h
          · rename_i hd
            cases h; exact Step.fetchInner doc hpc hsite hd
          · rename_i hd
            cases h; exact Step.fetchDeepest doc hpc hsite hd
      · rename_i p todo unv ret hpc
        split at h
        · rename_i hv
          cases h; exact Step.checkSeen p todo unv ret hpc hv
        · rename_i hv
          cases h; exact Step.checkNew p todo unv ret hpc hv
      · rename_i unv ret hpc
        split at h
        · rename_i hl
          cases h; exact Step.checkEndSome unv ret hpc hl
        · rename_i hl
          cases h; exact Step.checkEndNone unv ret hpc hl
      · rename_i p todo n ret hpc
        cases h; exact Step.spawn p todo n ret hpc
      · rename_i n ret hpc
        cases h; exact Step.spawnEnd n ret hpc
      · rename_i n ret hpc
        split at h
        · exact Option.noConfusion h
        · rename_i v rest hin
          cases h; exact Step.recv n ret v rest hpc hin
      · rename_i ret hpc
        cases h; exact Step.recvEnd ret hpc
      · rename_i ret hpc
        split at h
        · rename_i hpar
          cases h; exact Step.sendRoot ret hpc hpar
        · rename_i j hpar
          cases h; exact Step.sendChild ret j hpc hpar
      · exact Option.noConfusion h

/-- Induction over the runs from a state: a property that holds at `s0` and is kept
by every step holds after every schedule. -/
theorem run_induct {site : Site} (P : State → Prop)
    (hstep : ∀ s i s', P s → step site s i = some s' → P s') :
    ∀ (sched : List Nat) (s0 s : State), P s0 → run site sched s0 = some s → P s := by
  intro sched
  induction sched with
  | nil =>
    intro s0 s h0 h
    simp only [run] at h
    cases h; exact h0
  | cons i sched ih =>
    intro s0 s h0 h
    simp only [run] at h
    split at h
    · exact Option.noConfusion h
    · rename_i s1 hs1
      exact ih s1 s (hstep s0 i s1 h0 hs1) h

/-! ## How a step changes the goroutine table -/

theorem getElem?_setPC_self {gs : List Goroutine} {i : Nat} {g : Goroutine} (pc : PC)
    (hg : gs[i]? = some g) : (setPC gs i g pc)[i]? = some { g with pc := pc } := by
  have hlt : i < gs.length := (List.getElem?_eq_some.mp hg).1
  simp [setPC, List.getElem?_set, hlt]

theorem getElem?_setPC_ne {gs : List Goroutine} {i j : Nat} (g : Goroutine) (pc : PC)
    (hne : j ≠ i) : (setPC gs i g pc)[j]? = gs[j]? := by
  simp [setPC, List.getElem?_set, Ne.symm hne]

theorem length_setPC (gs : List Goroutine) (i : Nat) (g : Goroutine) (pc : PC) :
    (setPC gs i g pc).length = gs.length := by
  simp [setPC]

theorem length_deliver (gs : List Goroutine) (j : Nat) (v : List Product) :
    (deliver gs j v).length = gs.length := by
  unfold deliver
  split <;> simp

theorem getElem?_deliver_ne {gs : List Goroutine} {j k : Nat} (v : List Product)
    (hne : k ≠ j) : (deliver gs j v)[k]? = gs[k]? := by
  unfold deliver
  split
  · rfl
  · simp [List.getElem?_set, Ne.symm hne]

theorem getElem?_deliver_self {gs : List Goroutine} {j : Nat} {h : Goroutine} (v : List Product)
    (hj : gs[j]? = some h) :
    (deliver gs j v)[j]? = some { h with inbox := h.inbox ++ [v] } := by
  have hlt : j < gs.length := (List.getElem?_eq_some.mp hj).1
  unfold deliver
  rw [hj]
  simp [List.getElem?_set, hlt]

/-- What a step leaves alone: a goroutine of the new table is either the new child
made by a `go` statement, at the end of the table, or a goroutine that was already
there, with the same page, depth and parent; if it is not the one that ran it has
the same program counter, and the same channel content unless the one that ran
sent it a value. -/
theorem step_frame {site : Site} {s s' : State} {i : Nat} {g : Goroutine}
    (hg : s.gs[i]? = some g) (hs : Step site s i g s') (j : Nat) (h' : Goroutine)
    (hj : s'.gs[j]? = some h') :
    (∃ h, s.gs[j]? = some h ∧ h'.page = h.page ∧ h'.depth = h.depth ∧ h'.parent = h.parent ∧
        (j ≠ i → h'.pc = h.pc ∧
          ((h'.inbox = h.inbox ∧ ∀ ret, g.pc = PC.send ret → g.parent ≠ some j) ∨
            ∃ ret, g.pc = PC.send ret ∧ g.parent = some j ∧ h'.inbox = h.inbox ++ [ret]))) ∨
      (j = s.gs.length ∧ ∃ p todo n ret, g.pc = PC.spawn (p :: todo) n ret ∧
        h' = { page := p, depth := g.depth + 1, parent := some i, pc := PC.start, inbox := [] }) := by
  have hlt : i < s.gs.length := (List.getElem?_eq_some.mp hg).1
  have local_ : ∀ (pc : PC) (h' : Goroutine), (setPC s.gs i g pc)[j]? = some h' →
      ∃ h, s.gs[j]? = some h ∧ h'.page = h.page ∧ h'.depth = h.depth ∧ h'.parent = h.parent ∧
        (j ≠ i → h'.pc = h.pc ∧ h'.inbox = h.inbox) := by
    intro pc h' hj
    by_cases hji : j = i
    · subst hji
      rw [getElem?_setPC_self pc hg] at hj
      cases hj
      exact ⟨g, hg, rfl, rfl, rfl, fun hne => absurd rfl hne⟩
    · rw [getElem?_setPC_ne g pc hji] at hj
      exact ⟨h', hj, rfl, rfl, rfl, fun _ => ⟨rfl, rfl⟩⟩
  have fin : (∀ ret, g.pc = PC.send ret → g.parent ≠ some j) →
      ∀ (pc : PC) (h' : Goroutine), (setPC s.gs i g pc)[j]? = some h' →
      ∃ h, s.gs[j]? = some h ∧ h'.page = h.page ∧ h'.depth = h.depth ∧ h'.parent = h.parent ∧
        (j ≠ i → h'.pc = h.pc ∧
          ((h'.inbox = h.inbox ∧ ∀ ret, g.pc = PC.send ret → g.parent ≠ some j) ∨
            ∃ ret, g.pc = PC.send ret ∧ g.parent = some j ∧ h'.inbox = h.inbox ++ [ret])) := by
    intro hns pc h' hj
    obtain ⟨h, hh, e1, e2, e3, e4⟩ := local_ pc h' hj
    exact ⟨h, hh, e1, e2, e3, fun hne => ⟨(e4 hne).1, Or.inl ⟨(e4 hne).2, hns⟩⟩⟩
  cases hs with
  | start hpc => exact Or.inl (fin (by intro r hr; rw [hpc] at hr; cases hr) _ _ hj)
  | exit hpc hsite =>
    exact Or.inl ⟨h', hj, rfl, rfl, rfl,
      fun _ => ⟨rfl, Or.inl ⟨rfl, by intro r hr; rw [hpc] at hr; cases hr⟩⟩⟩
  | fetchInner doc hpc hsite hd =>
    exact Or.inl (fin (by intro r hr; rw [hpc] at hr; cases hr) _ _ hj)
  | fetchDeepest doc hpc hsite hd =>
    exact Or.inl (fin (by intro r hr; rw [hpc] at hr; cases hr) _ _ hj)
  | checkSeen p todo unv ret hpc hv =>
    exact Or.inl (fin (by intro r hr; rw [hpc] at hr; cases hr) _ _ hj)
  | checkNew p todo unv ret hpc hv =>
    exact Or.inl (fin (by intro r hr; rw [hpc] at hr; cases hr) _ _ hj)
  | checkEndSome unv ret hpc hl =>
    exact Or.inl (fin (by intro r hr; rw [hpc] at hr; cases hr) _ _ hj)
  | checkEndNone unv ret hpc hl =>
    exact Or.inl (fin (by intro r hr; rw [hpc] at hr; cases hr) _ _ hj)
  | spawn p todo n ret hpc =>
    simp only at hj
    by_cases hjl : j < s.gs.length
    · rw [List.getElem?_append_left (by rw [length_setPC]; exact hjl)] at hj
      exact Or.inl (fin (by intro r hr; rw [hpc] at hr; cases hr) _ _ hj)
    · have hge : (setPC s.gs i g (PC.spawn todo n ret)).length ≤ j := by
        rw [length_setPC]; omega
      rw [List.getElem?_append_right hge, length_setPC] at hj
      have hj0 : j - s.gs.length = 0 := by
        by_contra hne
        have : j - s.gs.length = (j - s.gs.length - 1) + 1 := by omega
        rw [this] at hj
        simp at hj
      rw [hj0] at hj
      simp at hj
      exact Or.inr ⟨by omega, p, todo, n, ret, hpc, hj.symm⟩
  | spawnEnd n ret hpc => exact Or.inl (fin (by intro r hr; rw [hpc] at hr; cases hr) _ _ hj)
  | recv n ret v rest hpc hin =>
    simp only at hj
    by_cases hji : j = i
    · subst hji
      rw [List.getElem?_set_self hlt] at hj
      cases hj
      exact Or.inl ⟨g, hg, rfl, rfl, rfl, fun hne => absurd rfl hne⟩
    · rw [List.getElem?_set_ne (Ne.symm hji)] at hj
      exact Or.inl ⟨h', hj, rfl, rfl, rfl,
        fun _ => ⟨rfl, Or.inl ⟨rfl, by intro r hr; rw [hpc] at hr; cases hr⟩⟩⟩
  | recvEnd ret hpc => exact Or.inl (fin (by intro r hr; rw [hpc] at hr; cases hr) _ _ hj)
  | sendRoot ret hpc hpar =>
    exact Or.inl (fin (by intro r _ hp; rw [hpar] at hp; cases hp) _ _ hj)
  | sendChild ret k hpc hpar =>
    simp only at hj
    by_cases hjk : j = k
    · subst hjk
      have hlen : j < (setPC s.gs i g PC.done).length := by
        have := (List.getElem?_eq_some.mp hj).1
        rwa [length_deliver] at this
      obtain ⟨h0, hh0⟩ : ∃ h0, (setPC s.gs i g PC.done)[j]? = some h0 :=
        ⟨_, List.getElem?_eq_getElem hlen⟩
      rw [getElem?_deliver_self ret hh0] at hj
      cases hj
      obtain ⟨h, hh, e1, e2, e3, e4⟩ := local_ _ _ hh0
      refine Or.inl ⟨h, hh, e1, e2, e3, fun hne => ?_⟩
      obtain ⟨e5, _⟩ := e4 hne
      refine ⟨e5, Or.inr ⟨ret, hpc, hpar, ?_⟩⟩
      have : h0 = h := by
        rw [getElem?_setPC_ne g _ hne] at hh0
        rw [hh0] at hh
        cases hh; rfl
      rw [this]
    · rw [getElem?_deliver_ne ret hjk] at hj
      exact Or.inl (fin (by intro r _ hp; rw [hpar] at hp; cases hp; exact hjk rfl) _ _ hj)

/-- A goroutine of the old table is still in the new one, with the same page,
depth and parent. -/
theorem step_keeps {site : Site} {s s' : State} {i : Nat} {g : Goroutine}
    (hg : s.gs[i]? = some g) (hs : Step site s i g s') (k : Nat) (h : Goroutine)
    (hk : s.gs[k]? = some h) :
    ∃ h', s'.gs[k]? = some h' ∧ h'.page = h.page ∧ h'.depth = h.depth ∧
      h'.parent = h.parent := by
  have hklt : k < s.gs.length := (List.getElem?_eq_some.mp hk).1
  have hlen : s.gs.length ≤ s'.gs.length := by
    cases hs <;> simp [length_setPC, length_deliver]
  obtain ⟨h', hh'⟩ : ∃ h', s'.gs[k]? = some h' :=
    ⟨_, List.getElem?_eq_getElem (Nat.lt_of_lt_of_le hklt hlen)⟩
  rcases step_frame hg hs k h' hh' with ⟨h0, hh0, e1, e2, e3, _⟩ | ⟨hkl, _⟩
  · rw [hk] at hh0
    cases hh0
    exact ⟨h', hh', e1, e2, e3⟩
  · omega

/-- The program counter of the goroutine that ran. -/
theorem step_self {site : Site} {s s' : State} {i : Nat} {g : Goroutine}
    (hg : s.gs[i]? = some g) (hs : Step site s i g s') (h' : Goroutine)
    (hi : s'.gs[i]? = some h') :
    PcStep site s.visitedPages g.page g.depth g.pc h'.pc := by
  have hlt : i < s.gs.length := (List.getElem?_eq_some.mp hg).1
  have local_ : ∀ (pc : PC) (h' : Goroutine), (setPC s.gs i g pc)[i]? = some h' → h'.pc = pc := by
    intro pc h' hj
    rw [getElem?_setPC_self pc hg] at hj
    cases hj; rfl
  cases hs with
  | start hpc => rw [hpc, local_ _ _ hi]; exact PcStep.start
  | exit hpc hsite =>
    simp only at hi
    rw [hg] at hi
    cases hi
    rw [hpc]; exact PcStep.exit hsite
  | fetchInner doc hpc hsite hd => rw [hpc, local_ _ _ hi]; exact PcStep.fetchInner doc hsite hd
  | fetchDeepest doc hpc hsite hd =>
    rw [hpc, local_ _ _ hi]; exact PcStep.fetchDeepest doc hsite hd
  | checkSeen p todo unv ret hpc hv =>
    rw [hpc, local_ _ _ hi]; exact PcStep.checkSeen p todo unv ret hv
  | checkNew p todo unv ret hpc hv =>
    rw [hpc, local_ _ _ hi]; exact PcStep.checkNew p todo unv ret hv
  | checkEndSome unv ret hpc hl => rw [hpc, local_ _ _ hi]; exact PcStep.checkEndSome unv ret hl
  | checkEndNone unv ret hpc hl => rw [hpc, local_ _ _ hi]; exact PcStep.checkEndNone unv ret hl
  | spawn p todo n ret hpc =>
    simp only at hi
    rw [List.getElem?_append_left (by rw [length_setPC]; exact hlt)] at hi
    rw [hpc, local_ _ _ hi]; exact PcStep.spawn p todo n ret
  | spawnEnd n ret hpc => rw [hpc, local_ _ _ hi]; exact PcStep.spawnEnd n ret
  | recv n ret v rest hpc hin =>
    simp only at hi
    rw [List.getElem?_set_self hlt] at hi
    cases hi
    rw [hpc]; exact PcStep.recv n ret v
  | recvEnd ret hpc => rw [hpc, local_ _ _ hi]; exact PcStep.recvEnd ret
  | sendRoot ret hpc hpar => rw [hpc, local_ _ _ hi]; exact PcStep.send ret
  | sendChild ret k hpc hpar =>
    simp only at hi
    by_cases hik : i = k
    · subst hik
      rw [getElem?_deliver_self ret (getElem?_setPC_self PC.done hg)] at hi
      cases hi
      rw [hpc]; exact PcStep.send ret
    · rw [getElem?_deliver_ne ret hik] at hi
      rw [hpc, local_ _ _ hi]; exact PcStep.send ret

/-! ## The shape of the goroutine table -/

theorem pcOk_step {site : Site} {visited : List String} {page : String} {depth : Nat}
    {pc pc' : PC} (hd : depth ≤ 5) (h : PcStep site visited page depth pc pc')
    (hok : PcOk site page depth pc) : PcOk site page depth pc' := by
  cases h with
  | start => trivial
  | exit hsite => trivial
  | fetchInner doc hsite hd =>
    exact ⟨hd, doc, hsite, rfl, fun l hl => hl, fun l hl => absurd hl (List.not_mem_nil l)⟩
  | fetchDeepest doc hsite hd => exact ⟨doc, hsite, fun _ => rfl⟩
  | checkSeen p todo unv ret hv =>
    obtain ⟨h1, doc, h2, h3, h4, h5⟩ := hok
    exact ⟨h1, doc, h2, h3, fun l hl => h4 l (List.mem_cons_of_mem _ hl), h5⟩
  | checkNew p todo unv ret hv =>
    obtain ⟨h1, doc, h2, h3, h4, h5⟩ := hok
    refine ⟨h1, doc, h2, h3, fun l hl => h4 l (List.mem_cons_of_mem _ hl), fun l hl => ?_⟩
    rcases List.mem_append.mp hl with hl | hl
    · exact h5 l hl
    · rw [List.mem_singleton.mp hl]
      exact h4 p (List.mem_cons_self _ _)
  | checkEndSome unv ret hl =>
    obtain ⟨h1, doc, h2, h3, _, h5⟩ := hok
    exact ⟨h1, doc, h2, h3, h5⟩
  | checkEndNone unv ret hl =>
    obtain ⟨h1, doc, h2, _, _, _⟩ := hok
    exact ⟨doc, h2, fun h => by omega⟩
  | spawn p todo n ret =>
    obtain ⟨h1, doc, h2, h3, h4⟩ := hok
    exact ⟨h1, doc, h2, h3, fun l hl => h4 l (List.mem_cons_of_mem _ hl)⟩
  | spawnEnd n ret =>
    obtain ⟨h1, doc, h2, _, _⟩ := hok
    exact ⟨h1, doc, h2⟩
  | recv n ret v => exact hok
  | recvEnd ret =>
    obtain ⟨h1, doc, h2⟩ := hok
    exact ⟨doc, h2, fun h => by omega⟩
  | send ret =>
    obtain ⟨doc, h2, _⟩ := hok
    exact ⟨doc, h2⟩

theorem wf_init (site : Site) (visited : List String) (root : String) :
    Wf site root (getProductsInit visited root) := by
  refine ⟨⟨_, rfl, rfl, rfl, rfl⟩, ?_⟩
  intro j g hj
  cases j with
  | zero =>
    simp [getProductsInit] at hj
    subst hj
    exact ⟨by simp, Reach.root, trivial, fun _ => rfl, fun i hi => Option.noConfusion hi⟩
  | succ j => simp [getProductsInit] at hj

theorem wf_step {site : Site} {root : String} {s s' : State} {i : Nat}
    (hw : Wf site root s) (h : step site s i = some s') : Wf site root s' := by
  obtain ⟨_, g, hg, hs⟩ := step_sound h
  obtain ⟨g0, hg0, e1, e2, e3⟩ := hw.root_
  constructor
  · obtain ⟨h', hh', f1, f2, f3⟩ := step_keeps hg hs 0 g0 hg0
    exact ⟨h', hh', f1.trans e1, f2.trans e2, f3.trans e3⟩
  · intro j h' hj
    obtain ⟨gd, gr, gok, _, _⟩ := hw.each i g hg
    rcases step_frame hg hs j h' hj with ⟨h0, hh0, f1, f2, f3, f4⟩ | ⟨hjl, p, todo, n, ret, hpc, rfl⟩
    · obtain ⟨hd, hr, hok, hp0, hpar⟩ := hw.each j h0 hh0
      refine ⟨f2 ▸ hd, f1 ▸ f2 ▸ hr, ?_, fun hn => hp0 (f3 ▸ hn), fun k hk => ?_⟩
      · by_cases hji : j = i
        · subst hji
          rw [hg] at hh0
          cases hh0
          rw [f1, f2]
          exact pcOk_step hd (step_self hg hs h' hj) hok
        · rw [f1, f2, (f4 hji).1]
          exact hok
      · obtain ⟨hlt, hp, hhp, hdp⟩ := hpar k (f3 ▸ hk)
        obtain ⟨hp', hhp', q1, q2, _⟩ := step_keeps hg hs k hp hhp
        exact ⟨hlt, hp', hhp', by rw [q2, f2]; exact hdp⟩
    · rw [hpc] at gok
      obtain ⟨hd5, doc, hsite, _, hall⟩ := gok
      refine ⟨hd5, Reach.link _ _ _ doc gr hsite (hall p (List.mem_cons_self _ _)), trivial,
        fun hn => Option.noConfusion hn, fun k hk => ?_⟩
      cases hk
      obtain ⟨hp', hhp', _, q2, _⟩ := step_keeps hg hs i g hg
      exact ⟨hjl ▸ (List.getElem?_eq_some.mp hg).1, hp', hhp', by rw [q2]⟩

/-! ## The channel accounts -/

theorem pending_set {gs : List Goroutine} {i : Nat} {g : Goroutine} (hg : gs[i]? = some g)
    (g' : Goroutine) (k : Nat) :
    pending (gs.set i g') k + (if counted k g = true then 1 else 0) =
      pending gs k + (if counted k g' = true then 1 else 0) := by
  induction gs generalizing i with
  | nil => simp at hg
  | cons a l ih =>
    cases i with
    | zero =>
      simp at hg
      subst hg
      simp only [pending, List.set_cons_zero, List.countP_cons]
      omega
    | succ i =>
      simp at hg
      have := ih hg
      simp only [pending, List.set_cons_succ, List.countP_cons] at this ⊢
      omega

theorem pending_append_one (gs : List Goroutine) (c : Goroutine) (k : Nat) :
    pending (gs ++ [c]) k = pending gs k + (if counted k c = true then 1 else 0) := by
  simp [pending, List.countP_append, List.countP_cons]

theorem pending_deliver (gs : List Goroutine) (j : Nat) (v : List Product) (k : Nat) :
    pending (deliver gs j v) k = pending gs k := by
  unfold deliver
  split
  · rfl
  · rename_i h hj
    have := pending_set hj { h with inbox := h.inbox ++ [v] } k
    have e : counted k { h with inbox := h.inbox ++ [v] } = counted k h := rfl
    rw [e] at this
    omega

theorem pending_pos {gs : List Goroutine} {i : Nat} {g : Goroutine} (hg : gs[i]? = some g)
    {k : Nat} (hc : counted k g = true) : 0 < pending gs k :=
  List.countP_pos_iff.mpr ⟨g, List.getElem?_mem hg, hc⟩

theorem pending_eq_zero {gs : List Goroutine} {k : Nat}
    (h : ∀ (j : Nat) (g : Goroutine), gs[j]? = some g → g.parent ≠ some k) :
    pending gs k = 0 := by
  unfold pending
  rw [List.countP_eq_zero]
  intro g hg
  obtain ⟨j, hj⟩ := List.mem_iff_getElem?.mp hg
  simp [counted, h j g hj]

/-- Whether a call stands before `list <- retProducts`. -/
theorem counted_of_send {g : Goroutine} {ret : List Product} {k : Nat}
    (hpc : g.pc = PC.send ret) (hpar : g.parent = some k) : counted k g = true := by
  simp [counted, hpc, hpar, isDone]

theorem counted_setPC_eq (g : Goroutine) (pc : PC) (k : Nat)
    (h : isDone pc = isDone g.pc) : counted k { g with pc := pc } = counted k g := by
  simp [counted, h]

/-- How a step changes the number of pending senders of channel `k`: a `go`
statement of goroutine `k` adds one, a send to channel `k` removes one. -/
theorem step_pending {site : Site} {s s' : State} {i : Nat} {g : Goroutine}
    (hg : s.gs[i]? = some g) (hs : Step site s i g s') (k : Nat) :
    (pending s'.gs k = pending s.gs k ∧
        (∀ ret, g.pc = PC.send ret → g.parent ≠ some k) ∧
        (∀ p todo n ret, g.pc = PC.spawn (p :: todo) n ret → k ≠ i)) ∨
      (pending s'.gs k + 1 = pending s.gs k ∧ ∃ ret, g.pc = PC.send ret ∧ g.parent = some k) ∨
      (pending s'.gs k = pending s.gs k + 1 ∧ k = i ∧
        ∃ p todo n ret, g.pc = PC.spawn (p :: todo) n ret) := by
  have local_ : ∀ pc, isDone pc = false → isDone g.pc = false →
      pending (setPC s.gs i g pc) k = pending s.gs k := by
    intro pc h1 h2
    have := pending_set hg { g with pc := pc } k
    rw [counted_setPC_eq g pc k (h1.trans h2.symm)] at this
    unfold setPC
    omega
  cases hs with
  | start hpc =>
    refine Or.inl ⟨local_ _ (by rfl) (by rw [hpc]; rfl), ?_, ?_⟩ <;> intros <;> simp_all
  | exit hpc hsite => refine Or.inl ⟨rfl, ?_, ?_⟩ <;> intros <;> simp_all
  | fetchInner doc hpc hsite hd =>
    refine Or.inl ⟨local_ _ (by rfl) (by rw [hpc]; rfl), ?_, ?_⟩ <;> intros <;> simp_all
  | fetchDeepest doc hpc hsite hd =>
    refine Or.inl ⟨local_ _ (by rfl) (by rw [hpc]; rfl), ?_, ?_⟩ <;> intros <;> simp_all
  | checkSeen p todo unv ret hpc hv =>
    refine Or.inl ⟨local_ _ (by rfl) (by rw [hpc]; rfl), ?_, ?_⟩ <;> intros <;> simp_all
  | checkNew p todo unv ret hpc hv =>
    refine Or.inl ⟨local_ _ (by rfl) (by rw [hpc]; rfl), ?_, ?_⟩ <;> intros <;> simp_all
  | checkEndSome unv ret hpc hl =>
    refine Or.inl ⟨local_ _ (by rfl) (by rw [hpc]; rfl), ?_, ?_⟩ <;> intros <;> simp_all
  | checkEndNone unv ret hpc hl =>
    refine Or.inl ⟨local_ _ (by rfl) (by rw [hpc]; rfl), ?_, ?_⟩ <;> intros <;> simp_all
  | spawn p todo n ret hpc =>
    simp only
    rw [pending_append_one, local_ _ (by rfl) (by rw [hpc]; rfl)]
    by_cases hki : k = i
    · subst hki
      exact Or.inr (Or.inr ⟨by simp [counted, isDone], rfl, p, todo, n, ret, hpc⟩)
    · refine Or.inl ⟨?_, ?_, fun _ _ _ _ _ => hki⟩
      · have : counted k (⟨p, g.depth + 1, some i, PC.start, []⟩ : Goroutine) = false := by
          simp [counted, Ne.symm hki]
        simp [this]
      · intro r hr
        rw [hpc] at hr
        exact PC.noConfusion hr
  | spawnEnd n ret hpc =>
    refine Or.inl ⟨local_ _ (by rfl) (by rw [hpc]; rfl), ?_, ?_⟩ <;> intros <;> simp_all
  | recv n ret v rest hpc hin =>
    refine Or.inl ⟨?_, ?_, ?_⟩
    · have := pending_set hg
        { g with pc := PC.recv n (appendUnique ret v), inbox := rest } k
      have e : counted k { g with pc := PC.recv n (appendUnique ret v), inbox := rest } =
          counted k g := by
        simp [counted, hpc, isDone]
      rw [e] at this
      simp only
      omega
    · intros; simp_all
    · intros; simp_all
  | recvEnd ret hpc =>
    refine Or.inl ⟨local_ _ (by rfl) (by rw [hpc]; rfl), ?_, ?_⟩ <;> intros <;> simp_all
  | sendRoot ret hpc hpar =>
    refine Or.inl ⟨?_, ?_, ?_⟩
    · have := pending_set hg { g with pc := PC.done } k
      have e1 : counted k g = false := by simp [counted, hpar]
      have e2 : counted k { g with pc := PC.done } = false := by simp [counted, hpar]
      rw [e1, e2] at this
      simp only [setPC]
      simpa using this
    · intros; simp_all
    · intros; simp_all
  | sendChild ret j hpc hpar =>
    simp only
    rw [pending_deliver]
    have := pending_set hg { g with pc := PC.done } k
    have e2 : counted k { g with pc := PC.done } = false := by simp [counted, isDone]
    rw [e2] at this
    by_cases hkj : j = k
    · subst hkj
      rw [counted_of_send hpc hpar] at this
      refine Or.inr (Or.inl ⟨?_, ret, hpc, hpar⟩)
      simp only [setPC]
      simpa using this
    · have e1 : counted k g = false := by simp [counted, hpar, hkj]
      rw [e1] at this
      refine Or.inl ⟨?_, ?_, ?_⟩
      · simp only [setPC]
        simpa using this
      · intro r _ hp
        rw [hpar] at hp
        cases hp
        exact hkj rfl
      · intros; simp_all

/-- The channel of the goroutine that ran: unchanged, or one value shorter after a
receive. -/
theorem step_self_inbox {site : Site} {s s' : State} {i : Nat} {g : Goroutine}
    (hg : s.gs[i]? = some g) (hs : Step site s i g s') (hpar : g.parent ≠ some i)
    (h' : Goroutine) (hi : s'.gs[i]? = some h') :
    (h'.inbox = g.inbox ∧ ∀ n ret, g.pc ≠ PC.recv (n + 1) ret) ∨
      ∃ n ret v, g.pc = PC.recv (n + 1) ret ∧ g.inbox = v :: h'.inbox ∧
        h'.pc = PC.recv n (appendUnique ret v) := by
  have hlt : i < s.gs.length := (List.getElem?_eq_some.mp hg).1
  have local_ : ∀ (pc : PC) (h' : Goroutine), (setPC s.gs i g pc)[i]? = some h' →
      h'.inbox = g.inbox := by
    intro pc h' hj
    rw [getElem?_setPC_self pc hg] at hj
    cases hj; rfl
  cases hs with
  | start hpc => exact Or.inl ⟨local_ _ _ hi, by intro n r hr; rw [hpc] at hr; cases hr⟩
  | exit hpc hsite =>
    simp only at hi
    rw [hg] at hi
    cases hi
    exact Or.inl ⟨rfl, by intro n r hr; rw [hpc] at hr; cases hr⟩
  | fetchInner doc hpc hsite hd =>
    exact Or.inl ⟨local_ _ _ hi, by intro n r hr; rw [hpc] at hr; cases hr⟩
  | fetchDeepest doc hpc hsite hd =>
    exact Or.inl ⟨local_ _ _ hi, by intro n r hr; rw [hpc] at hr; cases hr⟩
  | checkSeen p todo unv ret hpc hv =>
    exact Or.inl ⟨local_ _ _ hi, by intro n r hr; rw [hpc] at hr; cases hr⟩
  | checkNew p todo unv ret hpc hv =>
    exact Or.inl ⟨local_ _ _ hi, by intro n r hr; rw [hpc] at hr; cases hr⟩
  | checkEndSome unv ret hpc hl =>
    exact Or.inl ⟨local_ _ _ hi, by intro n r hr; rw [hpc] at hr; cases hr⟩
  | checkEndNone unv ret hpc hl =>
    exact Or.inl ⟨local_ _ _ hi, by intro n r hr; rw [hpc] at hr; cases hr⟩
  | spawn p todo n ret hpc =>
    simp only at hi
    rw [List.getElem?_append_left (by rw [length_setPC]; exact hlt)] at hi
    exact Or.inl ⟨local_ _ _ hi, by intro n r hr; rw [hpc] at hr; cases hr⟩
  | spawnEnd n ret hpc =>
    exact Or.inl ⟨local_ _ _ hi, by intro n r hr; rw [hpc] at hr; cases hr⟩
  | recv n ret v rest hpc hin =>
    simp only at hi
    rw [List.getElem?_set_self hlt] at hi
    cases hi
    exact Or.inr ⟨n, ret, v, hpc, hin, rfl⟩
  | recvEnd ret hpc =>
    exact Or.inl ⟨local_ _ _ hi, by intro n r hr; rw [hpc] at hr; cases hr⟩
  | sendRoot ret hpc hpar =>
    exact Or.inl ⟨local_ _ _ hi, by intro n r hr; rw [hpc] at hr; cases hr⟩
  | sendChild ret k hpc hpark =>
    simp only at hi
    have hik : i ≠ k := fun e => hpar (e ▸ hpark)
    rw [getElem?_deliver_ne ret hik] at hi
    exact Or.inl ⟨local_ _ _ hi, by intro n r hr; rw [hpc] at hr; cases hr⟩

/-- What a step does to the value of `getProducts`: only the send of a goroutine
whose channel is the one of `getProducts` sets it. -/
theorem step_result {site : Site} {s s' : State} {i : Nat} {g : Goroutine}
    (hs : Step site s i g s') :
    (s'.result = s.result ∧ ∀ ret, g.pc = PC.send ret → g.parent ≠ none) ∨
      ∃ ret, g.pc = PC.send ret ∧ g.parent = none ∧ s'.result = some ret := by
  cases hs with
  | sendRoot ret hpc hpar => exact Or.inr ⟨ret, hpc, hpar, rfl⟩
  | sendChild ret k hpc hpar =>
    exact Or.inl ⟨rfl, by intro r _ hp; rw [hpar] at hp; cases hp⟩
  | _ => exact Or.inl ⟨rfl, by intro r hr; simp_all⟩

/-- What a step does to the exit flag: only a failed fetch sets it, and that step
changes nothing else. -/
theorem step_exited {site : Site} {s s' : State} {i : Nat} {g : Goroutine}
    (hs : Step site s i g s') :
    s'.exited = s.exited ∨
      (g.pc = PC.fetch ∧ site g.page = none ∧ s'.gs = s.gs ∧ s'.result = s.result ∧
        s'.visitedPages = s.visitedPages ∧ s'.exited = true) := by
  cases hs with
  | exit hpc hsite => exact Or.inr ⟨hpc, hsite, rfl, rfl, rfl, rfl⟩
  | _ => exact Or.inl rfl

theorem chanInv_init (site : Site) (visited : List String) (root : String) :
    ChanInv site (getProductsInit visited root) := by
  refine ⟨?_, ?_, ?_⟩
  · intro j g hj
    cases j with
    | zero =>
      simp [getProductsInit] at hj
      subst hj
      simp [ChanOk, pending, getProductsInit, counted]
    | succ j => simp [getProductsInit] at hj
  · intro g0 hg0
    simp [getProductsInit] at hg0
    subst hg0
    rfl
  · intro h
    simp [getProductsInit] at h

theorem chanOk_congr {gs gs' : List Goroutine} {j : Nat} {g g' : Goroutine}
    (hpc : g'.pc = g.pc) (hin : g'.inbox = g.inbox) (hp : pending gs' j = pending gs j)
    (h : ChanOk gs j g) : ChanOk gs' j g' := by
  unfold ChanOk at h ⊢
  rw [hpc, hin, hp]
  exact h

theorem step_length {site : Site} {s s' : State} {i : Nat} {g : Goroutine}
    (hs : Step site s i g s') :
    s.gs.length ≤ s'.gs.length ∧ s'.gs.length ≤ s.gs.length + 1 := by
  cases hs <;> simp [length_setPC, length_deliver]

theorem chanInv_step {site : Site} {root : String} {s s' : State} {i : Nat}
    (hw : Wf site root s) (hc : ChanInv site s) (h : step site s i = some s') :
    ChanInv site s' := by
  obtain ⟨hex, g, hg, hs⟩ := step_sound h
  have hw' := wf_step hw h
  obtain ⟨_, _, _, hp0, hpar⟩ := hw.each i g hg
  have hpari : g.parent ≠ some i := fun e => by
    have := (hpar i e).1
    omega
  refine ⟨?_, ?_, ?_⟩
  · intro j h' hj
    rcases step_frame hg hs j h' hj with
      ⟨h0, hh0, f1, f2, f3, f4⟩ | ⟨hjl, p, todo, n, ret, hpc, rfl⟩
    · have hc0 := hc.chan j h0 hh0
      by_cases hji : j = i
      · subst hji
        rw [hg] at hh0
        cases hh0
        have hpcs := step_self hg hs h' hj
        have hin := step_self_inbox hg hs hpari h' hj
        have hpe := step_pending hg hs j
        unfold ChanOk at hc0 ⊢
        generalize g.pc = a at hpcs hc0 hin hpe
        generalize h'.pc = b at hpcs
        cases hpcs <;> dsimp only at hc0 ⊢ <;>
          rcases hin with ⟨hin, hnr⟩ | ⟨n', r', v', hr', hin, _⟩ <;>
          rcases hpe with ⟨hp, _, hnsp⟩ | ⟨hp, r, hr, hrp⟩ | ⟨hp, _, p', t', n'', r'', hsp⟩ <;>
          (try cases hr') <;> (try cases hr) <;> (try cases hsp) <;>
          (try exact absurd rfl (hnsp _ _ _ _ rfl)) <;> (try exact absurd rfl (hnr _ _)) <;>
          (have hl := congrArg List.length hin
           try simp only [List.length_cons, List.length_nil, ← List.length_eq_zero] at hl hc0 ⊢
           omega)
      · obtain ⟨e1, e2⟩ := f4 hji
        rcases step_pending hg hs j with ⟨hp, hns, _⟩ | ⟨hp, r, hr, hrp⟩ | ⟨_, hk, _⟩
        · rcases e2 with ⟨e2, _⟩ | ⟨r, hr, hrp, _⟩
          · exact chanOk_congr e1 e2 hp hc0
          · exact absurd hrp (hns r hr)
        · rcases e2 with ⟨_, hns⟩ | ⟨r', hr', hrp', e2⟩
          · exact absurd hrp (hns r hr)
          · unfold ChanOk at hc0 ⊢
            rw [e1, e2]
            generalize h0.pc = a at hc0
            cases a <;> simp_all <;> omega
        · exact absurd hk hji
    · have hz : pending s'.gs j = 0 := by
        apply pending_eq_zero
        intro j' g' hj' hp'
        have h1 := ((hw'.each j' g' hj').2.2.2.2 j hp').1
        have h2 := (List.getElem?_eq_some.mp hj').1
        have h3 := (step_length hs).2
        omega
      exact ⟨hz, rfl⟩
  · intro g0' hg0'
    obtain ⟨g0, hg0, e1, e2, e3⟩ := hw.root_
    have hr0 := hc.res g0 hg0
    rcases step_frame hg hs 0 g0' hg0' with ⟨h0, hh0, f1, f2, f3, f4⟩ | ⟨hjl, _⟩
    · rw [hg0] at hh0
      cases hh0
      by_cases hi0 : 0 = i
      · subst hi0
        rw [hg] at hg0
        cases hg0
        have hpcs := step_self hg hs g0' hg0'
        have hres := step_result hs
        generalize g.pc = a at hpcs hr0 hres
        generalize g0'.pc = b at hpcs ⊢
        cases hpcs <;>
          rcases hres with ⟨hres, hns⟩ | ⟨r, hr, hrp, hres⟩ <;>
          simp_all [isDone]
      · rw [(f4 hi0).1]
        rcases step_result hs with ⟨hres, _⟩ | ⟨r, hr, hrp, _⟩
        · rw [hres]; exact hr0
        · exact absurd (hp0 hrp).symm hi0
    · have := (List.getElem?_eq_some.mp hg0).1
      omega
  · intro hex'
    rcases step_exited hs with he | ⟨hpc, hsite, hgs, _⟩
    · rw [he, hex] at hex'
      exact Bool.noConfusion hex'
    · exact ⟨i, g, hgs ▸ hg, hpc, hsite⟩

/-- Every state of a run of `getProducts(root)` has a well-shaped goroutine table
and balanced channel accounts. -/
theorem inv_run {site : Site} {root : String} {visited : List String} {sched : List Nat}
    {s : State} (h : run site sched (getProductsInit visited root) = some s) :
    Wf site root s ∧ ChanInv site s :=
  run_induct (fun s => Wf site root s ∧ ChanInv site s)
    (fun _ _ _ hw hs => ⟨wf_step hw.1 hs, chanInv_step hw.1 hw.2 hs⟩) sched _ s
    ⟨wf_init site visited root, chanInv_init site visited root⟩ h

theorem isDone_iff (pc : PC) : isDone pc = true ↔ pc = PC.done := by
  cases pc <;> simp [isDone]

/-- Once `getProducts` has its value every goroutine has returned. -/
theorem all_done_of_result {site : Site} {root : String} {s : State} (hw : Wf site root s)
    (hc : ChanInv site s) (hres : s.result.isSome = true) :
    ∀ (j : Nat) (g : Goroutine), s.gs[j]? = some g → g.pc = PC.done := by
  intro j
  induction j using Nat.strong_induction_on with
  | _ j ih =>
    intro g hg
    obtain ⟨_, _, _, hp0, hpar⟩ := hw.each j g hg
    cases hp : g.parent with
    | none =>
      have hj0 := hp0 hp
      subst hj0
      have := hc.res g hg
      rw [hres] at this
      exact (isDone_iff _).mp this.symm
    | some i =>
      obtain ⟨hlt, h, hh, _⟩ := hpar i hp
      have hd := ih i hlt h hh
      have hco := hc.chan i h hh
      unfold ChanOk at hco
      rw [hd] at hco
      by_contra hnd
      have hcnt : counted i g = true := by
        have : isDone g.pc = false := by
          cases hx : isDone g.pc with
          | false => rfl
          | true => exact absurd ((isDone_iff _).mp hx) hnd
        simp [counted, hp, this]
      have := pending_pos hg hcnt
      have := hco.1
      omega

/-! ## The bookkeeping of `visitedPages` -/

/-- What a step does to `visitedPages`: only the first statement of a call changes
it, appending the page of the call. -/
theorem step_visited {site : Site} {s s' : State} {i : Nat} {g : Goroutine}
    (hs : Step site s i g s') :
    (s'.visitedPages = s.visitedPages ∧ g.pc ≠ PC.start) ∨
      (g.pc = PC.start ∧ s'.visitedPages = s.visitedPages ++ [g.page]) := by
  cases hs with
  | start hpc => exact Or.inr ⟨hpc, rfl⟩
  | _ => exact Or.inl ⟨rfl, by simp_all⟩

theorem step_visited_mono {site : Site} {s s' : State} {i : Nat} {g : Goroutine}
    (hs : Step site s i g s') {p : String} (hp : p ∈ s.visitedPages) : p ∈ s'.visitedPages := by
  rcases step_visited hs with ⟨h, _⟩ | ⟨_, h⟩
  · rw [h]; exact hp
  · rw [h]; exact List.mem_append_left _ hp

theorem step_covered_mono {site : Site} {s s' : State} {i : Nat} {g : Goroutine}
    (hg : s.gs[i]? = some g) (hs : Step site s i g s') {l : String} (hl : Covered s l) :
    Covered s' l := by
  rcases hl with hl | ⟨j, h, hj, hp⟩
  · exact Or.inl (step_visited_mono hs hl)
  · obtain ⟨h', hh', e1, _⟩ := step_keeps hg hs j h hj
    exact Or.inr ⟨j, h', hh', e1.trans hp⟩

/-- No step leads back to the first statement of a call. -/
theorem pcStep_ne_start {site : Site} {visited : List String} {page : String} {depth : Nat}
    {pc pc' : PC} (h : PcStep site visited page depth pc pc') : pc' ≠ PC.start := by
  cases h <;> simp

/-- The child made by a `go` statement is at the end of the new table. -/
theorem step_spawn_child {site : Site} {s s' : State} {i : Nat} {g : Goroutine}
    (hs : Step site s i g s') {p : String} {todo : List String} {n : Nat} {ret : List Product}
    (hpc : g.pc = PC.spawn (p :: todo) n ret) :
    s'.gs[s.gs.length]? =
      some { page := p, depth := g.depth + 1, parent := some i, pc := PC.start, inbox := [] } := by
  cases hs with
  | spawn p' todo' n' ret' hpc' =>
    rw [hpc] at hpc'
    cases hpc'
    simp only
    rw [List.getElem?_append_right (by rw [length_setPC]), length_setPC]
    simp
  | _ => simp_all

/-- The links in the hands of a call after its step were in its hands before, and
a link that leaves its hands was found in `visitedPages` or given to a new call. -/
theorem pcStep_pendingLinks {site : Site} {visited : List String} {page : String}
    {depth : Nat} {pc pc' : PC} (h : PcStep site visited page depth pc pc') (hs : pc ≠ PC.start)
    (hf : pc ≠ PC.fetch) (l : String) (hl : l ∈ pendingLinks pc) :
    l ∈ pendingLinks pc' ∨ l ∈ visited ∨ ∃ todo n ret, pc = PC.spawn (l :: todo) n ret := by
  cases h with
  | start => exact absurd rfl hs
  | exit hsite => exact absurd rfl hf
  | fetchInner doc hsite hd => exact absurd rfl hf
  | fetchDeepest doc hsite hd => exact absurd rfl hf
  | checkSeen p todo unv ret hv =>
    simp only [pendingLinks, List.mem_append, List.mem_cons] at hl ⊢
    rcases hl with (rfl | hl) | hl
    · exact Or.inr (Or.inl ((contains_iff _ _).mp hv))
    · exact Or.inl (Or.inl hl)
    · exact Or.inl (Or.inr hl)
  | checkNew p todo unv ret hv =>
    simp only [pendingLinks, List.mem_append, List.mem_cons, List.mem_singleton] at hl ⊢
    rcases hl with (rfl | hl) | hl
    · exact Or.inl (Or.inr (Or.inr (Or.inl rfl)))
    · exact Or.inl (Or.inl hl)
    · exact Or.inl (Or.inr (Or.inl hl))
  | checkEndSome unv ret hlen =>
    simp only [pendingLinks, List.nil_append] at hl ⊢
    exact Or.inl hl
  | checkEndNone unv ret hlen =>
    simp only [pendingLinks, List.nil_append] at hl
    have : unv = [] := List.length_eq_zero.mp (by omega)
    rw [this] at hl
    exact absurd hl (List.not_mem_nil l)
  | spawn p todo n ret =>
    simp only [pendingLinks, List.mem_cons] at hl ⊢
    rcases hl with rfl | hl
    · exact Or.inr (Or.inr ⟨todo, n, ret, rfl⟩)
    · exact Or.inl hl
  | spawnEnd n ret => simp [pendingLinks] at hl
  | recv n ret v => simp [pendingLinks] at hl
  | recvEnd ret => simp [pendingLinks] at hl
  | send ret => simp [pendingLinks] at hl

theorem coverInv_init (site : Site) (visited : List String) (root : String) :
    CoverInv site visited (getProductsInit visited root) := by
  refine ⟨?_, fun p hp => Or.inl hp, ?_⟩
  · intro j g hj hpc
    cases j with
    | zero =>
      simp [getProductsInit] at hj
      subst hj
      exact absurd rfl hpc
    | succ j => simp [getProductsInit] at hj
  · intro j g doc hj _ _ hpc
    cases j with
    | zero =>
      simp [getProductsInit] at hj
      subst hj
      exact absurd rfl hpc
    | succ j => simp [getProductsInit] at hj

theorem coverInv_step {site : Site} {pre : List String} {s s' : State} {i : Nat}
    (hc : CoverInv site pre s) (h : step site s i = some s') : CoverInv site pre s' := by
  obtain ⟨_, g, hg, hs⟩ := step_sound h
  have hkeep : ∀ (j : Nat) (h0 h' : Goroutine), s.gs[j]? = some h0 → s'.gs[j]? = some h' →
      h0.pc ≠ PC.start → h'.pc ≠ PC.start := by
    intro j h0 h' hh0 hh' hne
    by_cases hji : j = i
    · subst hji
      exact pcStep_ne_start (step_self hg hs h' hh')
    · rcases step_frame hg hs j h' hh' with ⟨h1, hh1, _, _, _, f4⟩ | ⟨hjl, _⟩
      · rw [hh0] at hh1
        cases hh1
        rw [(f4 hji).1]
        exact hne
      · have := (List.getElem?_eq_some.mp hh0).1
        omega
  refine ⟨?_, ?_, ?_⟩
  · intro j h' hj hpc
    rcases step_frame hg hs j h' hj with ⟨h0, hh0, f1, _, _, f4⟩ | ⟨_, p, todo, n, ret, _, rfl⟩
    · rw [f1]
      by_cases hji : j = i
      · subst hji
        rw [hg] at hh0
        cases hh0
        rcases step_visited hs with ⟨hv, hns⟩ | ⟨_, hv⟩
        · rw [hv]
          exact hc.started j g hg hns
        · rw [hv]
          exact List.mem_append_right _ (List.mem_singleton.mpr rfl)
      · rw [(f4 hji).1] at hpc
        exact step_visited_mono hs (hc.started j h0 hh0 hpc)
    · exact absurd rfl hpc
  · intro p hp
    have old : p ∈ s.visitedPages → p ∈ pre ∨
        ∃ (j : Nat) (g : Goroutine), s'.gs[j]? = some g ∧ g.page = p ∧ g.pc ≠ PC.start := by
      intro hp
      rcases hc.origin p hp with h | ⟨j, h0, hh0, e, hne⟩
      · exact Or.inl h
      · obtain ⟨h', hh', e1, _⟩ := step_keeps hg hs j h0 hh0
        exact Or.inr ⟨j, h', hh', e1.trans e, hkeep j h0 h' hh0 hh' hne⟩
    rcases step_visited hs with ⟨hv, _⟩ | ⟨_, hv⟩
    · rw [hv] at hp
      exact old hp
    · rw [hv] at hp
      rcases List.mem_append.mp hp with hp | hp
      · exact old hp
      · obtain ⟨h', hh', e1, _⟩ := step_keeps hg hs i g hg
        refine Or.inr ⟨i, h', hh', ?_, pcStep_ne_start (step_self hg hs h' hh')⟩
        rw [e1, List.mem_singleton.mp hp]
  · intro j h' doc hj hsite hd hns hnf l hl
    rcases step_frame hg hs j h' hj with ⟨h0, hh0, f1, f2, _, f4⟩ | ⟨_, p, todo, n, ret, _, rfl⟩
    · by_cases hji : j = i
      · subst hji
        rw [hg] at hh0
        cases hh0
        have hpcs := step_self hg hs h' hj
        rw [f1] at hsite
        rw [f2] at hd
        by_cases hgs : g.pc = PC.start
        · rw [hgs] at hpcs
          generalize h'.pc = b at hpcs hnf
          cases hpcs
          exact absurd rfl hnf
        · by_cases hgf : g.pc = PC.fetch
          · rw [hgf] at hpcs
            generalize h'.pc = b at hpcs hnf ⊢
            cases hpcs with
            | exit hsite' => exact absurd rfl hnf
            | fetchInner doc' hsite' hd' =>
              rw [hsite] at hsite'
              cases hsite'
              exact Or.inl (by simpa [pendingLinks] using hl)
            | fetchDeepest doc' hsite' hd' => exact absurd hd hd'
          · rcases hc.links j g doc hg hsite hd hgs hgf l hl with hpl | hcov
            · rcases pcStep_pendingLinks hpcs hgs hgf l hpl with h1 | h2 | ⟨todo, n, ret, hpc⟩
              · exact Or.inl h1
              · exact Or.inr (Or.inl (step_visited_mono hs h2))
              · exact Or.inr (Or.inr ⟨_, _, step_spawn_child hs hpc, rfl⟩)
            · exact Or.inr (step_covered_mono hg hs hcov)
      · obtain ⟨e1, _⟩ := f4 hji
        rw [e1] at hns hnf ⊢
        rw [f1] at hsite
        rw [f2] at hd
        rcases hc.links j h0 doc hh0 hsite hd hns hnf l hl with hpl | hcov
        · exact Or.inl hpl
        · exact Or.inr (step_covered_mono hg hs hcov)
    · exact absurd rfl hns

/-- Every state of a run of `getProducts(root)` entered with `visitedPages = visited`
has a well-shaped goroutine table, balanced channel accounts and a coherent
`visitedPages`. -/
theorem inv3_run {site : Site} {root : String} {visited : List String} {sched : List Nat}
    {s : State} (h : run site sched (getProductsInit visited root) = some s) :
    Wf site root s ∧ ChanInv site s ∧ CoverInv site visited s :=
  ⟨(inv_run h).1, (inv_run h).2,
    run_induct (CoverInv site visited) (fun _ _ _ hc hs => coverInv_step hc hs) sched _ s
      (coverInv_init site visited root) h⟩

/-- When `getProducts` has its value, every link of every page processed below
depth 5 is in `visitedPages`. -/
theorem links_visited_of_result {site : Site} {root : String} {pre : List String} {s : State}
    (hw : Wf site root s) (hc : ChanInv site s) (hv : CoverInv site pre s)
    (hres : s.result.isSome = true) (j : Nat) (g : Goroutine) (doc : Page)
    (hg : s.gs[j]? = some g) (hsite : site g.page = some doc) (hd : g.depth < 5)
    (l : String) (hl : l ∈ allPagesOf doc) : l ∈ s.visitedPages := by
  have hdone := all_done_of_result hw hc hres
  have hpc := hdone j g hg
  have := hv.links j g doc hg hsite hd (by rw [hpc]; simp) (by rw [hpc]; simp) l hl
  rw [hpc] at this
  rcases this with h | h | ⟨k, h, hk, e⟩
  · simp [pendingLinks] at h
  · exact h
  · rw [← e]
    exact hv.started k h hk (by rw [hdone k h hk]; simp)

/-- When `getProducts` has its value, the root is in `visitedPages`. -/
theorem root_visited_of_result {site : Site} {root : String} {pre : List String} {s : State}
    (hw : Wf site root s) (hc : ChanInv site s) (hv : CoverInv site pre s)
    (hres : s.result.isSome = true) : root ∈ s.visitedPages := by
  obtain ⟨g0, hg0, e1, _, _⟩ := hw.root_
  rw [← e1]
  exact hv.started 0 g0 hg0 (by rw [all_done_of_result hw hc hres 0 g0 hg0]; simp)

/-- When `getProducts`, entered with an empty `visitedPages`, has its value, every
URL on a link path that the depth limit cannot cut is in `visitedPages`. -/
theorem visited_of_reachBelow {site : Site} {root : String} {s : State}
    (hw : Wf site root s) (hc : ChanInv site s) (hv : CoverInv site [] s)
    (hres : s.result.isSome = true) (p : String) (hp : ReachBelow site root p) :
    p ∈ s.visitedPages := by
  induction hp with
  | root => exact root_visited_of_result hw hc hv hres
  | first l doc hsite hl =>
    obtain ⟨g0, hg0, e1, e2, _⟩ := hw.root_
    exact links_visited_of_result hw hc hv hres 0 g0 doc hg0 (by rw [e1]; exact hsite)
      (by omega) l hl
  | link p l doc _ h5 hsite hl ih =>
    rcases hv.origin p ih with h | ⟨j, g, hg, e, _⟩
    · exact absurd h (List.not_mem_nil p)
    · obtain ⟨hd, hr, _⟩ := hw.each j g hg
      have hlt : g.depth < 5 := by
        rcases Nat.lt_or_ge g.depth 5 with h | h
        · exact h
        · have h5' : g.depth = 5 := by omega
          rw [h5', e] at hr
          exact absurd hr h5
      exact links_visited_of_result hw hc hv hres j g doc hg (by rw [e]; exact hsite) hlt l hl

/-! ## Every run ends -/

theorem sum_map_set {gs : List Goroutine} {i : Nat} {g : Goroutine} (hg : gs[i]? = some g)
    (g' : Goroutine) (f : Goroutine → Nat) :
    ((gs.set i g').map f).sum + f g = (gs.map f).sum + f g' := by
  induction gs generalizing i with
  | nil => simp at hg
  | cons a l ih =>
    cases i with
    | zero =>
      simp at hg
      subst hg
      simp only [List.set_cons_zero, List.map_cons, List.sum_cons]
      omega
    | succ i =>
      simp at hg
      have := ih hg
      simp only [List.set_cons_succ, List.map_cons, List.sum_cons]
      omega

theorem sum_map_deliver (site : Site) (gs : List Goroutine) (j : Nat) (v : List Product) :
    ((deliver gs j v).map (remaining site)).sum = (gs.map (remaining site)).sum := by
  unfold deliver
  split
  · rfl
  · rename_i h hj
    have := sum_map_set hj { h with inbox := h.inbox ++ [v] } (remaining site)
    have e : remaining site { h with inbox := h.inbox ++ [v] } = remaining site h := rfl
    rw [e] at this
    omega

theorem callCost_pos (site : Site) (fuel : Nat) (p : String) : 2 ≤ callCost site fuel p := by
  cases fuel with
  | zero => simp [callCost]
  | succ f =>
    simp only [callCost]
    split <;> omega

theorem sum_setPC (site : Site) {gs : List Goroutine} {i : Nat} {g : Goroutine}
    (hg : gs[i]? = some g) (pc : PC) (d : Nat)
    (h : remaining site { g with pc := pc } + d ≤ remaining site g) :
    ((setPC gs i g pc).map (remaining site)).sum + d ≤ (gs.map (remaining site)).sum := by
  have := sum_map_set hg { g with pc := pc } (remaining site)
  unfold setPC
  omega

/-- Every step takes one from the bound `total`. -/
theorem step_total {site : Site} {s s' : State} {i : Nat} (h : step site s i = some s') :
    total site s' + 1 ≤ total site s := by
  obtain ⟨hex, g, hg, hs⟩ := step_sound h
  unfold total
  rw [hex]
  cases hs with
  | start hpc =>
    have := sum_setPC site hg PC.fetch 1 (by
      have := callCost_pos site (5 - g.depth) g.page
      simp only [remaining, hpc]
      omega)
    simp only [hex]
    simpa using this
  | exit hpc hsite => simp
  | fetchInner doc hpc hsite hd =>
    have := sum_setPC site hg (PC.check (allPagesOf doc) [] (ownProducts doc)) 1 (by
      obtain ⟨f, hf⟩ : ∃ f, 5 - g.depth = f + 1 := ⟨4 - g.depth, by omega⟩
      simp only [remaining, hpc, hf, callCost, hsite, List.append_nil, List.length_nil,
        Nat.add_sub_cancel]
      omega)
    simp only [hex]
    simpa using this
  | fetchDeepest doc hpc hsite hd =>
    have := sum_setPC site hg (PC.send (ownProducts doc)) 1 (by
      have hf : 5 - g.depth = 0 := by omega
      simp only [remaining, hpc, hf, callCost]
      omega)
    simp only [hex]
    simpa using this
  | checkSeen p todo unv ret hpc hv =>
    have := sum_setPC site hg (PC.check todo unv ret) 1 (by
      simp only [remaining, hpc, List.length_cons, List.cons_append, List.map_cons,
        List.sum_cons]
      omega)
    simp only [hex]
    simpa using this
  | checkNew p todo unv ret hpc hv =>
    have := sum_setPC site hg (PC.check todo (unv ++ [p]) ret) 1 (by
      simp only [remaining, hpc, List.length_cons, List.cons_append, List.map_cons,
        List.sum_cons, List.length_append, List.length_nil, List.map_append, List.sum_append,
        List.map_nil, List.sum_nil]
      omega)
    simp only [hex]
    simpa using this
  | checkEndSome unv ret hpc hl =>
    have := sum_setPC site hg (PC.spawn unv unv.length ret) 1 (by
      simp only [remaining, hpc, List.length_nil, List.nil_append]
      omega)
    simp only [hex]
    simpa using this
  | checkEndNone unv ret hpc hl =>
    have := sum_setPC site hg (PC.send ret) 1 (by
      simp only [remaining, hpc]
      omega)
    simp only [hex]
    simpa using this
  | spawn p todo n ret hpc =>
    have := sum_setPC site hg (PC.spawn todo n ret)
      (1 + callCost site (5 - g.depth - 1) p) (by
      simp only [remaining, hpc, List.length_cons, List.map_cons, List.sum_cons]
      omega)
    have e : remaining site
        (⟨p, g.depth + 1, some i, PC.start, []⟩ : Goroutine) =
        callCost site (5 - g.depth - 1) p := by
      simp only [remaining]
      congr 1
    simp only [hex, List.map_append, List.sum_append, List.map_cons, List.map_nil,
      List.sum_cons, List.sum_nil, e]
    simp only [Bool.false_eq_true, if_false]
    omega
  | spawnEnd n ret hpc =>
    have := sum_setPC site hg (PC.recv n ret) 1 (by
      simp only [remaining, hpc, List.length_nil, List.map_nil, List.sum_nil]
      omega)
    simp only [hex]
    simpa using this
  | recv n ret v rest hpc hin =>
    have := sum_map_set hg
      { g with pc := PC.recv n (appendUnique ret v), inbox := rest } (remaining site)
    have e1 : remaining site { g with pc := PC.recv n (appendUnique ret v), inbox := rest } =
        n + 2 := rfl
    have e2 : remaining site g = n + 1 + 2 := by simp only [remaining, hpc]
    simp only [hex]
    simp only [Bool.false_eq_true, if_false]
    omega
  | recvEnd ret hpc =>
    have := sum_setPC site hg (PC.send ret) 1 (by
      simp only [remaining, hpc]
      omega)
    simp only [hex]
    simpa using this
  | sendRoot ret hpc hpar =>
    have := sum_setPC site hg PC.done 1 (by
      simp only [remaining, hpc]
      omega)
    simp only [hex]
    simpa using this
  | sendChild ret k hpc hpar =>
    have := sum_setPC site hg PC.done 1 (by
      simp only [remaining, hpc]
      omega)
    simp only [hex, sum_map_deliver]
    simpa using this

/-- A run is no longer than the bound of the state it starts from. -/
theorem run_length {site : Site} :
    ∀ (sched : List Nat) (s0 s : State), run site sched s0 = some s →
      sched.length + total site s ≤ total site s0 := by
  intro sched
  induction sched with
  | nil =>
    intro s0 s h
    simp only [run] at h
    cases h
    simp
  | cons k sched ih =>
    intro s0 s h
    simp only [run] at h
    cases hs1 : step site s0 k with
    | none =>
      rw [hs1] at h
      cases h
    | some s1 =>
      rw [hs1] at h
      have h1 := ih s1 s h
      have h2 := step_total hs1
      simp only [List.length_cons]
      omega

/-- A run of `getProducts(root)` has at most `callCost site 5 root + 1` steps. -/
theorem run_bounded {site : Site} {root : String} {visited : List String} {sched : List Nat}
    {s : State} (h : run site sched (getProductsInit visited root) = some s) :
    sched.length ≤ callCost site 5 root + 1 := by
  have := run_length sched _ s h
  have e : total site (getProductsInit visited root) = callCost site 5 root + 1 := by
    simp [total, getProductsInit, remaining]
  omega

/-! ## No run is stuck -/

/-- A call that has not returned can take a step, unless it waits on its empty
channel or the process has exited. -/
theorem step_enabled {site : Site} {s : State} {j : Nat} {g : Goroutine}
    (hex : s.exited = false) (hg : s.gs[j]? = some g) (hnd : g.pc ≠ PC.done)
    (hin : ∀ n ret, g.pc = PC.recv (n + 1) ret → g.inbox ≠ []) :
    ∃ s', step site s j = some s' := by
  apply Option.isSome_iff_exists.mp
  obtain ⟨page, depth, parent, pc, inbox⟩ := g
  simp only at hnd hin
  cases pc with
  | start => simp [step, hex, hg]
  | fetch =>
    cases hsite : site page with
    | none => simp [step, hex, hg, hsite]
    | some doc =>
      by_cases hd : depth < 5
      · simp [step, hex, hg, hsite, hd]
      · simp [step, hex, hg, hsite, hd]
  | check todo unv ret =>
    cases todo with
    | nil =>
      by_cases hl : unv.length > 0
      · simp only [step, hex, hg]
        simp [hl]
      · simp only [step, hex, hg]
        simp [hl]
    | cons p todo =>
      by_cases hv : contains s.visitedPages p = true
      · simp [step, hex, hg, hv]
      · simp [step, hex, hg, hv]
  | spawn todo n ret =>
    cases todo with
    | nil => simp [step, hex, hg]
    | cons p todo => simp [step, hex, hg]
  | recv n ret =>
    cases n with
    | zero => simp [step, hex, hg]
    | succ n =>
      cases inbox with
      | nil => exact absurd rfl (hin n ret rfl)
      | cons v rest => simp [step, hex, hg]
  | send ret =>
    cases parent with
    | none => simp [step, hex, hg]
    | some k => simp [step, hex, hg]
  | done => exact absurd rfl hnd

/-- Among the calls that have not returned there is one that was started last. -/
theorem exists_last_running (gs : List Goroutine) :
    ∀ (d j : Nat) (g : Goroutine), gs.length - j = d → gs[j]? = some g → g.pc ≠ PC.done →
      ∃ (j : Nat) (g : Goroutine), gs[j]? = some g ∧ g.pc ≠ PC.done ∧
        ∀ (j' : Nat) (g' : Goroutine), j < j' → gs[j']? = some g' → g'.pc = PC.done := by
  intro d
  induction d using Nat.strong_induction_on with
  | _ d ih =>
    intro j g hd hg hnd
    by_cases hall : ∀ (j' : Nat) (g' : Goroutine), j < j' → gs[j']? = some g' → g'.pc = PC.done
    · exact ⟨j, g, hg, hnd, hall⟩
    · push_neg at hall
      obtain ⟨j', g', hlt, hg', hnd'⟩ := hall
      have h1 := (List.getElem?_eq_some.mp hg').1
      exact ih (gs.length - j') (by omega) j' g' rfl hg' hnd'

/-- As long as `getProducts` has no value and the process has not exited, some
goroutine can take a step. -/
theorem progress {site : Site} {root : String} {s : State} (hw : Wf site root s)
    (hc : ChanInv site s) (hex : s.exited = false) (hres : s.result = none) :
    ∃ (k : Nat) (s' : State), step site s k = some s' := by
  obtain ⟨g0, hg0, _⟩ := hw.root_
  have h0 : g0.pc ≠ PC.done := by
    intro e
    have := hc.res g0 hg0
    rw [hres, e] at this
    cases this
  obtain ⟨j, g, hg, hnd, hlast⟩ := exists_last_running s.gs _ 0 g0 rfl hg0 h0
  refine ⟨j, step_enabled hex hg hnd ?_⟩
  intro n ret hpc hin
  have hco := hc.chan j g hg
  unfold ChanOk at hco
  rw [hpc, hin] at hco
  have hpos : 0 < pending s.gs j := by
    simp only [List.length_nil] at hco
    omega
  obtain ⟨c, hc1, hc2⟩ := List.countP_pos_iff.mp hpos
  obtain ⟨k, hk⟩ := List.mem_iff_getElem?.mp hc1
  simp only [counted, Bool.and_eq_true, decide_eq_true_eq, Bool.not_eq_true'] at hc2
  have hlt := ((hw.each k c hk).2.2.2.2 j hc2.1).1
  have := hlast k c hlt hk
  rw [this] at hc2
  simp [isDone] at hc2

theorem run_append (site : Site) (a b : List Nat) (s : State) :
    run site (a ++ b) s = (run site a s).bind (run site b) := by
  induction a generalizing s with
  | nil => rfl
  | cons k a ih =>
    simp only [List.cons_append, run]
    cases step site s k with
    | none => rfl
    | some s1 => exact ih s1

theorem completes_from {site : Site} {root : String} :
    ∀ (n : Nat) (s : State), total site s ≤ n → Wf site root s → ChanInv site s →
      ∃ (sched' : List Nat) (s' : State), run site sched' s = some s' ∧
        (s'.result.isSome = true ∨ s'.exited = true) := by
  intro n
  induction n with
  | zero =>
    intro s hn hw hc
    cases hr : s.result with
    | some r => exact ⟨[], s, rfl, Or.inl (by rw [hr]; rfl)⟩
    | none =>
      cases hex : s.exited with
      | true => exact ⟨[], s, rfl, Or.inr hex⟩
      | false =>
        obtain ⟨k, s1, hs1⟩ := progress hw hc hex hr
        have := step_total hs1
        omega
  | succ n ih =>
    intro s hn hw hc
    cases hr : s.result with
    | some r => exact ⟨[], s, rfl, Or.inl (by rw [hr]; rfl)⟩
    | none =>
      cases hex : s.exited with
      | true => exact ⟨[], s, rfl, Or.inr hex⟩
      | false =>
        obtain ⟨k, s1, hs1⟩ := progress hw hc hex hr
        have hlt := step_total hs1
        obtain ⟨sched', s', hrun, hfin⟩ :=
          ih s1 (by omega) (wf_step hw hs1) (chanInv_step hw hc hs1)
        exact ⟨k :: sched', s', by simp only [run, hs1]; exact hrun, hfin⟩

/-- Every run of `getProducts(root)` can be continued to a state in which
`getProducts` has its value or the process has exited. -/
theorem run_completes {site : Site} {root : String} {visited : List String}
    {sched : List Nat} {s : State}
    (h : run site sched (getProductsInit visited root) = some s) :
    ∃ (sched' : List Nat) (s' : State),
      run site (sched ++ sched') (getProductsInit visited root) = some s' ∧
        (s'.result.isSome = true ∨ s'.exited = true) := by
  obtain ⟨hw, hc⟩ := inv_run h
  obtain ⟨sched', s', hrun, hfin⟩ := completes_from (total site s) s (Nat.le_refl _) hw hc
  exact ⟨sched', s', by rw [run_append, h]; exact hrun, hfin⟩

/-! ## The chain of seven pages -/

theorem chain_reach (d : Nat) (p : String) (h : Reach chainSite "0" d p) :
    (d = 0 ∧ p = "0") ∨ (d = 1 ∧ p = "1") ∨ (d = 2 ∧ p = "2") ∨ (d = 3 ∧ p = "3") ∨
      (d = 4 ∧ p = "4") ∨ (d = 5 ∧ p = "5") ∨ (d = 6 ∧ p = "6") := by
  induction h with
  | root => exact Or.inl ⟨rfl, rfl⟩
  | link d p l doc _ hsite hl ih =>
    rcases ih with h | h | h | h | h | h | h <;>
    · obtain ⟨hd, hp⟩ := h
      subst hd
      subst hp
      simp [chainSite] at hsite
      subst hsite
      simp [allPagesOf, listing, paginationLoop, contains] at hl
      try simp [hl]

theorem chain_not_reach5 (p : String) (hp : p ≠ "5") : ¬ Reach chainSite "0" 5 p := by
  intro h
  rcases chain_reach 5 p h with h | h | h | h | h | h | h <;>
  · obtain ⟨hd, he⟩ := h
    first | omega | exact hp he

theorem chain_reachBelow (p : String) (hp : p ∈ ["0", "1", "2", "3", "4", "5"]) :
    ReachBelow chainSite "0" p := by
  have h1 : ReachBelow chainSite "0" "1" :=
    ReachBelow.first "1" (listing ["1"] ["p0"]) rfl (by decide)
  have h2 : ReachBelow chainSite "0" "2" :=
    ReachBelow.link "1" "2" (listing ["2"] ["p1"]) h1 (chain_not_reach5 _ (by decide)) rfl
      (by decide)
  have h3 : ReachBelow chainSite "0" "3" :=
    ReachBelow.link "2" "3" (listing ["3"] ["p2"]) h2 (chain_not_reach5 _ (by decide)) rfl
      (by decide)
  have h4 : ReachBelow chainSite "0" "4" :=
    ReachBelow.link "3" "4" (listing ["4"] ["p3"]) h3 (chain_not_reach5 _ (by decide)) rfl
      (by decide)
  have h5 : ReachBelow chainSite "0" "5" :=
    ReachBelow.link "4" "5" (listing ["5"] ["p4"]) h4 (chain_not_reach5 _ (by decide)) rfl
      (by decide)
  simp only [List.mem_cons, List.mem_singleton, List.not_mem_nil, or_false] at hp
  rcases hp with rfl | rfl | rfl | rfl | rfl | rfl
  · exact ReachBelow.root
  · exact h1
  · exact h2
  · exact h3
  · exact h4
  · exact h5

theorem chain_no_call_for_6 {sched : List Nat} {s : State}
    (h : run chainSite sched (getProductsInit [] "0") = some s) (j : Nat) (g : Goroutine)
    (hg : s.gs[j]? = some g) : g.page ≠ "6" := by
  intro e
  obtain ⟨hd, hr, _⟩ := (inv3_run h).1.each j g hg
  rw [e] at hr
  rcases chain_reach _ _ hr with h | h | h | h | h | h | h <;>
  · obtain ⟨hd', he⟩ := h
    first | omega | exact absurd he (by decide)

theorem chain_not_exited {sched : List Nat} {s : State}
    (h : run chainSite sched (getProductsInit [] "0") = some s) : s.exited = false := by
  cases hex : s.exited with
  | false => rfl
  | true =>
    obtain ⟨hw, hc, _⟩ := inv3_run h
    obtain ⟨j, g, hg, _, hsite⟩ := hc.exit_ hex
    obtain ⟨_, hr, _⟩ := hw.each j g hg
    rcases chain_reach _ _ hr with h | h | h | h | h | h | h <;>
    · rw [h.2] at hsite
      simp [chainSite] at hsite

/-! ## The depth limit -/

/-- C3: during `getProducts(root)` every `parsePage` call has a depth of at most 5
and its page is reached from the root by exactly that many links; a call at depth
5 starts no child, never enters the lookup, spawn or receive loop, and sends the
page's own products; so every URL put into `visitedPages` is within 5 links of
the root, and no call is made for a URL that no chain of at most 5 links reaches
from the root. On the chain `0 -> 1 -> ... -> 6` no call is ever made for page 6; the
crawl never exits, can always take a step until `getProducts` returns, and takes
at most 49 steps (48 under `chainSched`); and when `getProducts` returns pages 0 to
5 have been fetched. -/
theorem parsePage_depth_bound (site : Site) (visited : List String) (root : String)
    (sched : List Nat) (s : State)
    (h : run site sched (getProductsInit visited root) = some s) :
    (∀ (j : Nat) (g : Goroutine), s.gs[j]? = some g →
      g.depth ≤ 5 ∧ Reach site root g.depth g.page ∧
      (g.depth = 5 →
        (∀ (k : Nat) (c : Goroutine), s.gs[k]? = some c → c.parent ≠ some j) ∧
        (∀ todo unVisited ret, g.pc ≠ PC.check todo unVisited ret) ∧
        (∀ todo n ret, g.pc ≠ PC.spawn todo n ret) ∧
        (∀ n ret, g.pc ≠ PC.recv n ret) ∧
        ∀ ret, g.pc = PC.send ret → ∃ doc, site g.page = some doc ∧ ret = ownProducts doc)) ∧
    (∀ p ∈ s.visitedPages, p ∈ visited ∨ ∃ d, d ≤ 5 ∧ Reach site root d p) ∧
    (∀ p : String, (∀ d, Reach site root d p → 5 < d) →
      (∀ (j : Nat) (g : Goroutine), s.gs[j]? = some g → g.page ≠ p) ∧
      (p ∈ s.visitedPages → p ∈ visited)) ∧
    (∀ (sched' : List Nat) (s' : State),
      run chainSite sched' (getProductsInit [] "0") = some s' →
      "6" ∉ s'.visitedPages ∧
      (∀ (j : Nat) (g : Goroutine), s'.gs[j]? = some g → g.page ≠ "6") ∧
      (s'.result.isSome = true → ∀ p ∈ ["0", "1", "2", "3", "4", "5"], p ∈ s'.visitedPages) ∧
      s'.exited = false ∧
      (s'.result = none → ∃ (k : Nat) (s'' : State), step chainSite s' k = some s'') ∧
      sched'.length ≤ 49) ∧
    (run chainSite chainSched (getProductsInit [] "0")).map
        (fun t => (t.visitedPages, t.result.isSome)) =
      some (["0", "1", "2", "3", "4", "5"], true) := by
  obtain ⟨hw, _, hv⟩ := inv3_run h
  have hfar : ∀ p : String, (∀ d, Reach site root d p → 5 < d) →
      ∀ (j : Nat) (g : Goroutine), s.gs[j]? = some g → g.page ≠ p := by
    intro p hp j g hg e
    obtain ⟨hd, hr, _⟩ := hw.each j g hg
    have := hp g.depth (e ▸ hr)
    omega
  refine ⟨?_, ?_, ?_, ?_, by decide⟩
  · intro j g hg
    obtain ⟨hd, hr, hok, _, _⟩ := hw.each j g hg
    refine ⟨hd, hr, fun h5 => ⟨?_, ?_, ?_, ?_, ?_⟩⟩
    · intro k c hc hp
      obtain ⟨_, hpar, hh, e⟩ := (hw.each k c hc).2.2.2.2 j hp
      rw [hg] at hh
      cases hh
      have := (hw.each k c hc).1
      omega
    · intro todo unv ret e
      rw [e] at hok
      have := hok.1
      omega
    · intro todo n ret e
      rw [e] at hok
      have := hok.1
      omega
    · intro n ret e
      rw [e] at hok
      have := hok.1
      omega
    · intro ret e
      rw [e] at hok
      obtain ⟨doc, h1, h2⟩ := hok
      exact ⟨doc, h1, h2 h5⟩
  · intro p hp
    rcases hv.origin p hp with h | ⟨j, g, hg, e, _⟩
    · exact Or.inl h
    · obtain ⟨hd, hr, _⟩ := hw.each j g hg
      exact Or.inr ⟨g.depth, hd, e ▸ hr⟩
  · intro p hp
    refine ⟨hfar p hp, fun hm => ?_⟩
    rcases hv.origin p hm with h | ⟨j, g, hg, e, _⟩
    · exact h
    · exact absurd e (hfar p hp j g hg)
  · intro sched' s' h'
    obtain ⟨hw', hc', hv'⟩ := inv3_run h'
    refine ⟨?_, chain_no_call_for_6 h', ?_, chain_not_exited h',
      progress hw' hc' (chain_not_exited h'), ?_⟩
    · intro h6
      rcases hv'.origin "6" h6 with h | ⟨j, g, hg, e, _⟩
      · exact absurd h (List.not_mem_nil _)
      · exact chain_no_call_for_6 h' j g hg e
    · intro hres p hp
      exact visited_of_reachBelow hw' hc' hv' hres p (chain_reachBelow p hp)
    · have hb := run_bounded h'
      have e : callCost chainSite 5 "0" = 48 := by decide
      omega

/-- An instance of C3: the run of `forkSite` under `forkSchedBC`. -/
theorem parsePage_depth_bound_witness :
    run forkSite forkSchedBC (getProductsInit [] "r") = some forkFinal ∧
      ∀ p ∈ forkFinal.visitedPages, p ∈ [] ∨ ∃ d, d ≤ 5 ∧ Reach forkSite "r" d p :=
  ⟨by decide,
    (parsePage_depth_bound forkSite [] "r" forkSchedBC forkFinal (by decide)).2.1⟩

/-! ## Which pages a crawl fetches -/

/-- C2, at a failing input: on `diamondSite` under `diamondSched` the crawl returns
with `d` twice in `visitedPages`, after five `parsePage` calls for four URLs. -/
theorem diamond_fetched_twice :
    (run diamondSite diamondSched (getProductsInit [] "r")).map
        (fun t => (t.visitedPages, t.gs.map (fun g => g.page), t.result.isSome)) =
      some (["r", "b", "c", "d", "d"], ["r", "b", "c", "d", "d"], true) ∧
    ¬ (["r", "b", "c", "d", "d"] : List String).Nodup := by
  constructor <;> decide

theorem productLoop_eq (acc : List Product) (fs : List Fragment) :
    productLoop acc fs =
      acc ++ (fs.filter (fun f => f.existsHref && f.existsImage)).map fragmentProduct := by
  induction fs generalizing acc with
  | nil => simp [productLoop]
  | cons f rest ih =>
    by_cases h : (f.existsHref && f.existsImage) = true
    · simp only [productLoop, h, if_true, ih, List.filter_cons_of_pos, List.map_cons,
        List.append_assoc]
      rfl
    · simp only [productLoop, h, if_false, ih, List.filter_cons_of_neg, Bool.false_eq_true,
        not_false_eq_true]

theorem ownProducts_eq (doc : Page) :
    ownProducts doc =
      (doc.products.filter (fun f => f.existsHref && f.existsImage)).map fragmentProduct := by
  simp [ownProducts, productLoop_eq]

theorem scraped_of_own {site : Site} {url : String} {doc : Page} (hsite : site url = some doc)
    {x : Product} (hx : x ∈ ownProducts doc) : Scraped site x := by
  rw [ownProducts_eq] at hx
  obtain ⟨f, hf, rfl⟩ := List.mem_map.mp hx
  obtain ⟨hf1, hf2⟩ := List.mem_filter.mp hf
  simp only [Bool.and_eq_true] at hf2
  exact ⟨url, doc, f, hsite, hf1, hf2.1, hf2.2, rfl⟩

/-- Outside a receive, the products held after a step were held before or are the
own products of the page. -/
theorem pcStep_retOf {site : Site} {visited : List String} {page : String} {depth : Nat}
    {pc pc' : PC} (h : PcStep site visited page depth pc pc')
    (hnr : ∀ n ret, pc ≠ PC.recv (n + 1) ret) (x : Product) (hx : x ∈ retOf pc') :
    x ∈ retOf pc ∨ ∃ doc, site page = some doc ∧ x ∈ ownProducts doc := by
  cases h with
  | fetchInner doc hsite hd => exact Or.inr ⟨doc, hsite, hx⟩
  | fetchDeepest doc hsite hd => exact Or.inr ⟨doc, hsite, hx⟩
  | recv n ret v => exact absurd rfl (hnr n ret)
  | _ => first | exact Or.inl hx | exact absurd hx (List.not_mem_nil _)

theorem prodInv_init (site : Site) (visited : List String) (root : String) :
    ProdInv site (getProductsInit visited root) := by
  refine ⟨?_, ?_, ?_⟩
  · intro j g hj
    cases j with
    | zero =>
      simp [getProductsInit] at hj
      subst hj
      simp [retOf]
    | succ j => simp [getProductsInit] at hj
  · intro j g hj
    cases j with
    | zero =>
      simp [getProductsInit] at hj
      subst hj
      simp
    | succ j => simp [getProductsInit] at hj
  · intro r hr
    simp [getProductsInit] at hr

theorem prodInv_step {site : Site} {root : String} {s s' : State} {i : Nat}
    (hw : Wf site root s) (hp : ProdInv site s) (h : step site s i = some s') :
    ProdInv site s' := by
  obtain ⟨_, g, hg, hs⟩ := step_sound h
  have hpari : g.parent ≠ some i := fun e => by
    have := ((hw.each i g hg).2.2.2.2 i e).1
    omega
  refine ⟨?_, ?_, ?_⟩
  · intro j h' hj x hx
    rcases step_frame hg hs j h' hj with ⟨h0, hh0, f1, _, _, f4⟩ | ⟨_, p, todo, n, ret, _, rfl⟩
    · by_cases hji : j = i
      · subst hji
        rw [hg] at hh0
        cases hh0
        rcases step_self_inbox hg hs hpari h' hj with ⟨_, hnr⟩ | ⟨n, ret, v, hpc, hin, hpc'⟩
        · rcases pcStep_retOf (step_self hg hs h' hj) hnr x hx with hx | ⟨doc, hsite, hx⟩
          · exact hp.ret j g hg x hx
          · exact scraped_of_own hsite hx
        · rw [hpc'] at hx
          simp only [retOf] at hx
          rcases (mem_appendUnique _ _ _).mp hx with hx | ⟨hx, _⟩
          · exact hp.ret j g hg x (by rw [hpc]; exact hx)
          · exact hp.inbox j g hg v (by rw [hin]; exact List.mem_cons_self _ _) x hx
      · rw [(f4 hji).1] at hx
        exact hp.ret j h0 hh0 x hx
    · exact absurd hx (List.not_mem_nil _)
  · intro j h' hj v hv x hx
    rcases step_frame hg hs j h' hj with ⟨h0, hh0, f1, _, _, f4⟩ | ⟨_, p, todo, n, ret, _, rfl⟩
    · by_cases hji : j = i
      · subst hji
        rw [hg] at hh0
        cases hh0
        rcases step_self_inbox hg hs hpari h' hj with ⟨hin, _⟩ | ⟨n, ret, v', hpc, hin, _⟩
        · exact hp.inbox j g hg v (hin ▸ hv) x hx
        · exact hp.inbox j g hg v (by rw [hin]; exact List.mem_cons_of_mem _ hv) x hx
      · rcases (f4 hji).2 with ⟨hin, _⟩ | ⟨ret, hpc, _, hin⟩
        · exact hp.inbox j h0 hh0 v (hin ▸ hv) x hx
        · rw [hin] at hv
          rcases List.mem_append.mp hv with hv | hv
          · exact hp.inbox j h0 hh0 v hv x hx
          · rw [List.mem_singleton.mp hv] at hx
            exact hp.ret i g hg x (by rw [hpc]; exact hx)
    · exact absurd hv (List.not_mem_nil _)
  · intro r hr x hx
    rcases step_result hs with ⟨hres, _⟩ | ⟨ret, hpc, _, hres⟩
    · exact hp.res r (hres ▸ hr) x hx
    · rw [hres] at hr
      cases hr
      exact hp.ret i g hg x (by rw [hpc]; exact hx)

theorem prodInv_run {site : Site} {root : String} {visited : List String} {sched : List Nat}
    {s : State} (h : run site sched (getProductsInit visited root) = some s) :
    ProdInv site s :=
  (run_induct (fun s => Wf site root s ∧ ProdInv site s)
    (fun _ _ _ hw hs => ⟨wf_step hw.1 hs, prodInv_step hw.1 hw.2 hs⟩) sched _ s
    ⟨wf_init site visited root, prodInv_init site visited root⟩ h).2

/-! ## A root whose links are all in `visitedPages` already -/

theorem soloOk_init (visited : List String) (root : String) (own : List Product) :
    SoloOk root visited own (getProductsInit visited root) :=
  ⟨_, rfl, rfl, rfl, rfl, fun _ hp => hp, rfl⟩

theorem soloOk_step {site : Site} {root : String} {pre : List String} {doc : Page}
    (hsite : site root = some doc) (hall : ∀ l ∈ allPagesOf doc, l ∈ pre) {s s' : State}
    {i : Nat} (hso : SoloOk root pre (ownProducts doc) s) (h : step site s i = some s') :
    SoloOk root pre (ownProducts doc) s' := by
  obtain ⟨_, g', hg', hs⟩ := step_sound h
  obtain ⟨g, hgs, e1, e2, e3, hpre, hm⟩ := hso
  have hi : i = 0 ∧ g' = g := by
    rw [hgs] at hg'
    cases i with
    | zero => simp at hg'; exact ⟨rfl, hg'.symm⟩
    | succ i => simp at hg'
  obtain ⟨rfl, rfl⟩ := hi
  cases hs with
  | start hpc =>
    exact ⟨{ g' with pc := PC.fetch }, by simp [setPC, hgs], e1, e2, e3,
      fun p hp => List.mem_append_left _ (hpre p hp), by rw [hpc] at hm; exact hm⟩
  | exit hpc hsite' =>
    rw [e1, hsite] at hsite'
    cases hsite'
  | fetchInner doc' hpc hsite' hd =>
    rw [e1, hsite] at hsite'
    cases hsite'
    rw [hpc] at hm
    exact ⟨{ g' with pc := PC.check (allPagesOf doc) [] (ownProducts doc) },
      by simp [setPC, hgs], e1, e2, e3, hpre, hall, rfl, rfl, hm⟩
  | fetchDeepest doc' hpc hsite' hd => exact absurd (by omega) hd
  | checkSeen p todo unv ret hpc hv =>
    rw [hpc] at hm
    obtain ⟨h1, h2, h3, h4⟩ := hm
    exact ⟨{ g' with pc := PC.check todo unv ret }, by simp [setPC, hgs], e1, e2, e3, hpre,
      fun l hl => h1 l (List.mem_cons_of_mem _ hl), h2, h3, h4⟩
  | checkNew p todo unv ret hpc hv =>
    rw [hpc] at hm
    exact absurd ((contains_iff _ _).mpr (hpre p (hm.1 p (List.mem_cons_self _ _)))) hv
  | checkEndSome unv ret hpc hl =>
    rw [hpc] at hm
    rw [hm.2.1] at hl
    simp at hl
  | checkEndNone unv ret hpc hl =>
    rw [hpc] at hm
    exact ⟨{ g' with pc := PC.send ret }, by simp [setPC, hgs], e1, e2, e3, hpre,
      hm.2.2.1, hm.2.2.2⟩
  | spawn p todo n ret hpc => rw [hpc] at hm; exact hm.elim
  | spawnEnd n ret hpc => rw [hpc] at hm; exact hm.elim
  | recv n ret v rest hpc hin => rw [hpc] at hm; exact hm.elim
  | recvEnd ret hpc => rw [hpc] at hm; exact hm.elim
  | sendRoot ret hpc hpar =>
    rw [hpc] at hm
    exact ⟨{ g' with pc := PC.done }, by simp [setPC, hgs], e1, e2, e3, hpre,
      by rw [hm.1]⟩
  | sendChild ret k hpc hpar =>
    rw [e3] at hpar
    cases hpar

/-- When every link of the root page is in `visitedPages` on entry (in particular
when the page has no link), the root call is the only call, and a value returned
by `getProducts` is the list of the root page's own products. -/
theorem solo_run {site : Site} {root : String} {visited : List String} {doc : Page}
    (hsite : site root = some doc) (hall : ∀ l ∈ allPagesOf doc, l ∈ visited)
    {sched : List Nat} {s : State}
    (h : run site sched (getProductsInit visited root) = some s) :
    s.gs.length = 1 ∧ ∀ r, s.result = some r → r = ownProducts doc := by
  have := run_induct (SoloOk root visited (ownProducts doc))
    (fun _ _ _ hso hs => soloOk_step hsite hall hso hs) sched _ s
    (soloOk_init visited root _) h
  obtain ⟨g, hgs, _, _, _, _, hm⟩ := this
  refine ⟨by rw [hgs]; rfl, fun r hr => ?_⟩
  generalize g.pc = a at hm
  cases a <;> simp_all

/-- When the root page is fetched and every link of it is in `visitedPages` on
entry, the process does not exit. -/
theorem solo_not_exited {site : Site} {root : String} {visited : List String} {doc : Page}
    (hsite : site root = some doc) (hall : ∀ l ∈ allPagesOf doc, l ∈ visited)
    {sched : List Nat} {s : State}
    (h : run site sched (getProductsInit visited root) = some s) : s.exited = false := by
  cases hx : s.exited with
  | false => rfl
  | true =>
    obtain ⟨hw, hc⟩ := inv_run h
    obtain ⟨j, g, hg, _, hnone⟩ := hc.exit_ hx
    obtain ⟨g0, hg0, e1, _⟩ := hw.root_
    have hlen := (solo_run hsite hall h).1
    have hj : j = 0 := by
      have := (List.getElem?_eq_some.mp hg).1
      omega
    subst hj
    rw [hg] at hg0
    cases hg0
    rw [e1, hsite] at hnone
    cases hnone

/-- C8: the own products of a page are exactly its product entries that have both
an `href` and an image `src`, in page order; every product that a `parsePage` call
sends, and every product in the value of `getProducts`, is built from such an
entry of some page of the site. On `leafSite` (no pagination link, valid entries
`a`, `b`, `d` and an entry `c` without image) `getProducts` returns exactly the
products of `a`, `b`, `d`, in this order: every run can take a step until it has
returned, none has more than 7 steps, and the value returned is this list. -/
theorem own_products_valid (site : Site) (visited : List String) (root : String)
    (sched : List Nat) (s : State)
    (h : run site sched (getProductsInit visited root) = some s) :
    (∀ doc : Page, ownProducts doc =
      (doc.products.filter (fun f => f.existsHref && f.existsImage)).map fragmentProduct) ∧
    (∀ (j : Nat) (g : Goroutine) (ret : List Product), s.gs[j]? = some g → g.pc = PC.send ret →
      ∀ x ∈ ret, Scraped site x) ∧
    (∀ r, s.result = some r → ∀ x ∈ r, Scraped site x) ∧
    (∀ (sched' : List Nat) (s' : State),
      run leafSite sched' (getProductsInit [] "r") = some s' →
      (∀ r, s'.result = some r → r = [itemProduct "a", itemProduct "b", itemProduct "d"]) ∧
      (s'.result = none → ∃ (k : Nat) (s'' : State), step leafSite s' k = some s'') ∧
      sched'.length ≤ 7) ∧
    (run leafSite [0, 0, 0, 0] (getProductsInit [] "r")).map (fun t => t.result) =
      some (some [itemProduct "a", itemProduct "b", itemProduct "d"]) := by
  have hp := prodInv_run h
  refine ⟨ownProducts_eq, ?_, hp.res, ?_, by decide⟩
  · intro j g ret hg hpc x hx
    exact hp.ret j g hg x (by rw [hpc]; exact hx)
  · intro sched' s' h'
    have hsite : leafSite "r" = some
        { pagination := [],
          products := [item "a", item "b",
            { url := "/p/c", existsHref := true, name := "c", image := "", existsImage := false,
              price := "$1" },
            item "d"] } := rfl
    have hsolo := solo_run hsite (by intro l hl; simp [allPagesOf, paginationLoop] at hl) h'
    obtain ⟨hw', hc', _⟩ := inv3_run h'
    have hex : s'.exited = false := by
      cases hx : s'.exited with
      | false => rfl
      | true =>
        obtain ⟨j, g, hg, _, hnone⟩ := hc'.exit_ hx
        obtain ⟨g0, hg0, e1, _⟩ := hw'.root_
        have hj : j = 0 := by
          have := (List.getElem?_eq_some.mp hg).1
          omega
        subst hj
        rw [hg] at hg0
        cases hg0
        rw [e1] at hnone
        cases hnone
    refine ⟨fun r hr => ?_, progress hw' hc' hex, ?_⟩
    · rw [hsolo.2 r hr]
      decide
    · have hb := run_bounded h'
      have e : callCost leafSite 5 "r" = 6 := by decide
      omega

/-- An instance of C8: the run of `forkSite` under `forkSchedBC`. -/
theorem own_products_valid_witness :
    run forkSite forkSchedBC (getProductsInit [] "r") = some forkFinal ∧
      ∀ r, forkFinal.result = some r → ∀ x ∈ r, Scraped forkSite x :=
  ⟨by decide,
    (own_products_valid forkSite [] "r" forkSchedBC forkFinal (by decide)).2.2.1⟩

/-! ## `visitedPages` across calls -/

theorem pcStep_newLinks {site : Site} {visited : List String} {page : String} {depth : Nat}
    {pc pc' : PC} (h : PcStep site visited page depth pc pc') (l : String)
    (hl : l ∈ newLinks pc') : l ∈ newLinks pc ∨ l ∉ visited := by
  cases h with
  | checkNew p todo unv ret hv =>
    simp only [newLinks, List.mem_append, List.mem_singleton] at hl ⊢
    rcases hl with hl | rfl
    · exact Or.inl hl
    · exact Or.inr (fun hm => hv ((contains_iff _ _).mpr hm))
  | checkSeen p todo unv ret hv => exact Or.inl hl
  | checkEndSome unv ret hlen => exact Or.inl hl
  | spawn p todo n ret => exact Or.inl (List.mem_cons_of_mem _ hl)
  | _ => exact absurd hl (List.not_mem_nil _)

theorem freshInv_init (visited : List String) (root : String) :
    FreshInv visited (getProductsInit visited root) := by
  refine ⟨⟨[], by simp [getProductsInit]⟩, ?_⟩
  intro j g hj
  cases j with
  | zero =>
    simp [getProductsInit] at hj
    subst hj
    exact ⟨fun h => absurd rfl h, fun l hl => absurd hl (List.not_mem_nil _)⟩
  | succ j => simp [getProductsInit] at hj

theorem freshInv_step {site : Site} {pre : List String} {s s' : State} {i : Nat}
    (hf : FreshInv pre s) (h : step site s i = some s') : FreshInv pre s' := by
  obtain ⟨_, g, hg, hs⟩ := step_sound h
  obtain ⟨added, hadd⟩ := hf.grows
  refine ⟨?_, ?_⟩
  · rcases step_visited hs with ⟨hv, _⟩ | ⟨_, hv⟩
    · exact ⟨added, by rw [hv, hadd]⟩
    · exact ⟨added ++ [g.page], by rw [hv, hadd, List.append_assoc]⟩
  · intro j h' hj
    rcases step_frame hg hs j h' hj with ⟨h0, hh0, f1, _, f3, f4⟩ | ⟨_, p, todo, n, ret, hpc, rfl⟩
    · obtain ⟨hp, hn⟩ := hf.fresh j h0 hh0
      refine ⟨fun hne => f1 ▸ hp (f3 ▸ hne), fun l hl => ?_⟩
      by_cases hji : j = i
      · subst hji
        rw [hg] at hh0
        cases hh0
        rcases pcStep_newLinks (step_self hg hs h' hj) l hl with h1 | h2
        · exact hn l h1
        · intro hm
          exact h2 (by rw [hadd]; exact List.mem_append_left _ hm)
      · rw [(f4 hji).1] at hl
        exact hn l hl
    · refine ⟨fun _ => ?_, fun l hl => absurd hl (List.not_mem_nil _)⟩
      exact (hf.fresh i g hg).2 p (by rw [hpc]; exact List.mem_cons_self _ _)

theorem freshInv_run {site : Site} {root : String} {visited : List String} {sched : List Nat}
    {s : State} (h : run site sched (getProductsInit visited root) = some s) :
    FreshInv visited s :=
  run_induct (FreshInv visited) (fun _ _ _ hf hs => freshInv_step hf hs) sched _ s
    (freshInv_init visited root) h

/-- C6, as stated, fails: on `forkSite` a first `getProducts("r")` returns the
products of `r`, `b` and `c` and leaves `["r", "b", "c"]` in `visitedPages`; a
second call, entered with that `visitedPages`, returns the product of `r` alone,
under its schedule `soloSched` and under every other schedule. -/
theorem second_call_differs :
    (run forkSite forkSchedBC (getProductsInit [] "r")).map
        (fun t => (t.visitedPages, t.result)) =
      some (["r", "b", "c"], some [itemProduct "pr", itemProduct "pb", itemProduct "pc"]) ∧
    (run forkSite soloSched (getProductsInit ["r", "b", "c"] "r")).map (fun t => t.result) =
      some (some [itemProduct "pr"]) ∧
    ∀ (sched : List Nat) (s : State) (r : List Product),
      run forkSite sched (getProductsInit ["r", "b", "c"] "r") = some s → s.result = some r →
      r = [itemProduct "pr"] := by
  refine ⟨by decide, by decide, ?_⟩
  intro sched s r h hr
  have hsite : forkSite "r" = some (listing ["b", "c"] ["pr"]) := rfl
  have := (solo_run hsite (by decide) h).2 r hr
  rw [this]
  decide

/-- C6, amended: `getProducts(root)` starts from the `visitedPages` that earlier
calls have left (`visited`): the list is only appended to; the first step appends
the root, whatever the list holds; no child call is made for a URL that was in the
list on entry. Whatever the list holds, the call takes at most
`callCost site 5 root + 1` steps, can take a step as long as it has neither
returned nor exited, and can always be continued until it has returned or exited.
When the root page is fetched and every link of it was in the list on entry, the
process does not exit, the root call is the only call, and the call returns
exactly the root page's own products: every run can be continued to one that has
returned this list, and no other value is ever returned. -/
theorem getProducts_registry (site : Site) (visited : List String) (root : String)
    (sched : List Nat) (s : State)
    (h : run site sched (getProductsInit visited root) = some s) :
    (∃ added, s.visitedPages = visited ++ added) ∧
    (step site (getProductsInit visited root) 0).map (fun t => t.visitedPages) =
      some (visited ++ [root]) ∧
    (∀ (j : Nat) (g : Goroutine), s.gs[j]? = some g → g.parent ≠ none → g.page ∉ visited) ∧
    sched.length ≤ callCost site 5 root + 1 ∧
    (s.result = none → s.exited = false →
      ∃ (k : Nat) (s' : State), step site s k = some s') ∧
    (∃ (sched' : List Nat) (s' : State),
      run site (sched ++ sched') (getProductsInit visited root) = some s' ∧
        (s'.result.isSome = true ∨ s'.exited = true)) ∧
    (∀ doc : Page, site root = some doc → (∀ l ∈ allPagesOf doc, l ∈ visited) →
      s.exited = false ∧ s.gs.length = 1 ∧
      (∀ r, s.result = some r → r = ownProducts doc) ∧
      ∃ (sched' : List Nat) (s' : State),
        run site (sched ++ sched') (getProductsInit visited root) = some s' ∧
          s'.result = some (ownProducts doc)) := by
  have hf := freshInv_run h
  obtain ⟨hw, hc⟩ := inv_run h
  refine ⟨hf.grows, rfl, fun j g hg hne => (hf.fresh j g hg).1 hne, run_bounded h,
    fun hres hex => progress hw hc hex hres, run_completes h, ?_⟩
  intro doc hsite hall
  refine ⟨solo_not_exited hsite hall h, (solo_run hsite hall h).1, (solo_run hsite hall h).2, ?_⟩
  obtain ⟨sched', s', hrun, hfin⟩ := run_completes h
  refine ⟨sched', s', hrun, ?_⟩
  rcases hfin with hres | hex
  · cases hr : s'.result with
    | none => rw [hr] at hres; cases hres
    | some r => rw [(solo_run hsite hall hrun).2 r hr]
  · rw [solo_not_exited hsite hall hrun] at hex
    cases hex

/-- An instance of the amended C6: the second call on `forkSite` returns the root's own
products. -/
theorem getProducts_registry_witness :
    run forkSite soloSched (getProductsInit ["r", "b", "c"] "r") = some secondFinal ∧
      forkSite "r" = some (listing ["b", "c"] ["pr"]) ∧
      (∀ l ∈ allPagesOf (listing ["b", "c"] ["pr"]), l ∈ ["r", "b", "c"]) ∧
      secondFinal.result = some [itemProduct "pr"] ∧
      (secondFinal.exited = false ∧ secondFinal.gs.length = 1 ∧
        (∀ r, secondFinal.result = some r → r = ownProducts (listing ["b", "c"] ["pr"])) ∧
        ∃ (sched' : List Nat) (s' : State),
          run forkSite (soloSched ++ sched') (getProductsInit ["r", "b", "c"] "r") = some s' ∧
            s'.result = some (ownProducts (listing ["b", "c"] ["pr"]))) :=
  ⟨by decide, rfl, by decide, rfl,
    (getProducts_registry forkSite ["r", "b", "c"] "r" soloSched secondFinal
      (by decide)).2.2.2.2.2.2 (listing ["b", "c"] ["pr"]) rfl (by decide)⟩

/-! ## A failing request -/

/-- When a call has been made for a page whose request fails, `getProducts` has no
value, and never gets one. -/
theorem result_none_of_failed {site : Site} {root : String} {visited : List String}
    {sched : List Nat} {s : State}
    (h : run site sched (getProductsInit visited root) = some s)
    (hfail : ∃ (j : Nat) (g : Goroutine), s.gs[j]? = some g ∧ site g.page = none) :
    s.result = none := by
  obtain ⟨hw, hc, _⟩ := inv3_run h
  obtain ⟨j, g, hg, hsite⟩ := hfail
  cases hr : s.result with
  | none => rfl
  | some r =>
    have hres : s.result.isSome = true := by rw [hr]; rfl
    have hd := all_done_of_result hw hc hres j g hg
    have hok := (hw.each j g hg).2.2.1
    rw [hd] at hok
    obtain ⟨doc, hdoc⟩ := hok
    rw [hsite] at hdoc
    cases hdoc

/-- C9, as stated, fails: on `brokenSite` under `brokenSched` the call for `c` has
returned and the root has merged its product when the request for `b` fails; the
process exits and `getProducts` has no value; and under no schedule does
`getProducts` ever get a value. -/
theorem broken_child_no_result :
    run brokenSite brokenSched (getProductsInit [] "r") = some brokenFinal ∧
    brokenFinal.exited = true ∧ brokenFinal.result = none ∧
    (∀ i, step brokenSite brokenFinal i = none) ∧
    ∀ (sched : List Nat) (s : State),
      run brokenSite sched (getProductsInit [] "r") = some s → s.result = none := by
  refine ⟨by decide, rfl, rfl, fun i => by simp [step, brokenFinal], ?_⟩
  intro sched s h
  cases hr : s.result with
  | none => rfl
  | some r =>
    have hres : s.result.isSome = true := by rw [hr]; rfl
    obtain ⟨hw, hc, hv⟩ := inv3_run h
    have hb : "b" ∈ s.visitedPages :=
      visited_of_reachBelow hw hc hv hres "b"
        (ReachBelow.first "b" (listing ["b", "c"] ["pr"]) rfl (by decide))
    rcases hv.origin "b" hb with h0 | ⟨j, g, hg, e, _⟩
    · exact absurd h0 (List.not_mem_nil _)
    · have := result_none_of_failed h ⟨j, g, hg, by rw [e]; rfl⟩
      rw [hr] at this
      cases this

/-- C9, amended: when the request of a call fails, the step of that call is
`os.Exit(1)`; once the process has exited no goroutine takes a step and
`getProducts` has no value; and as soon as a call exists for a page whose request
fails, `getProducts` has no value (and never gets one, this holding in every later
state): the crawl returns nothing to its caller, neither a full nor a partial
result. -/
theorem fetch_failure_exits (site : Site) (visited : List String) (root : String)
    (sched : List Nat) (s : State)
    (h : run site sched (getProductsInit visited root) = some s) :
    (∀ (j : Nat) (g : Goroutine), s.gs[j]? = some g → g.pc = PC.fetch → site g.page = none →
      s.exited = false → step site s j = some { s with exited := true }) ∧
    ((∃ (j : Nat) (g : Goroutine), s.gs[j]? = some g ∧ site g.page = none) →
      s.result = none) ∧
    (s.exited = true →
      s.result = none ∧ (∀ i, step site s i = none) ∧
      ∃ (j : Nat) (g : Goroutine), s.gs[j]? = some g ∧ g.pc = PC.fetch ∧ site g.page = none) := by
  obtain ⟨hw, hc, _⟩ := inv3_run h
  refine ⟨?_, result_none_of_failed h, ?_⟩
  · intro j g hg hpc hsite hex
    simp [step, hex, hg, hpc, hsite]
  · intro hex
    obtain ⟨j, g, hg, hpc, hsite⟩ := hc.exit_ hex
    exact ⟨result_none_of_failed h ⟨j, g, hg, hsite⟩, fun i => by simp [step, hex],
      j, g, hg, hpc, hsite⟩

/-- An instance of the amended C9: the run of `brokenSite` under `brokenSched` ends in an exit. -/
theorem fetch_failure_exits_witness :
    run brokenSite brokenSched (getProductsInit [] "r") = some brokenFinal ∧
      brokenFinal.exited = true ∧
      (brokenFinal.result = none ∧ (∀ i, step brokenSite brokenFinal i = none) ∧
        ∃ (j : Nat) (g : Goroutine), brokenFinal.gs[j]? = some g ∧ g.pc = PC.fetch ∧
          brokenSite g.page = none) :=
  ⟨by decide, rfl,
    (fetch_failure_exits brokenSite [] "r" brokenSched brokenFinal (by decide)).2.2 rfl⟩

/-! ## The order of the merge -/

theorem sentTo_cases {s : State} {k : Nat} {g : Goroutine} (hg : s.gs[k]? = some g) (i : Nat) :
    (∃ ret, g.pc = PC.send ret ∧ g.parent = some i ∧ sentTo s k i = [ret]) ∨
      ((∀ ret, g.pc = PC.send ret → g.parent ≠ some i) ∧ sentTo s k i = []) := by
  unfold sentTo
  rw [hg]
  obtain ⟨page, depth, parent, pc, inbox⟩ := g
  cases pc <;> cases parent <;> simp
  rename_i ret j
  by_cases hji : j = i
  · exact Or.inl hji
  · exact Or.inr hji

/-- Nothing is sent to a channel without pending senders. -/
theorem sentTo_nil_of_pending {s : State} {k : Nat} {g : Goroutine} (hg : s.gs[k]? = some g)
    {i : Nat} (hp : pending s.gs i = 0) : sentTo s k i = [] := by
  rcases sentTo_cases hg i with ⟨ret, hpc, hpar, _⟩ | ⟨_, h⟩
  · have := pending_pos hg (counted_of_send hpc hpar)
    omega
  · exact h

/-- A value arrives in the channel of a call that is not the one that ran. -/
theorem traceOk_deliver {site : Site} {gs : List Goroutine} {i : Nat} {H : List (List Product)}
    {h0 g' : Goroutine} {ret : List Product} (ht : TraceOk site H h0) (hc : ChanOk gs i h0)
    (hpos : 0 < pending gs i) (hpc : g'.pc = h0.pc) (hpage : g'.page = h0.page)
    (hin : g'.inbox = h0.inbox ++ [ret]) : TraceOk site (H ++ [ret]) g' := by
  unfold TraceOk at ht ⊢
  unfold ChanOk at hc
  rw [hpc, hpage, hin]
  generalize h0.pc = a at ht hc
  cases a with
  | start => exact absurd hc.1 (by omega)
  | fetch => exact absurd hc.1 (by omega)
  | check todo unv r => exact absurd hc.1 (by omega)
  | spawn todo n r => exact ⟨by rw [ht.1], ht.2⟩
  | recv n r =>
    obtain ⟨ds, h1, h2⟩ := ht
    exact ⟨ds, by rw [← List.append_assoc, h1], h2⟩
  | send r => exact absurd hc.1 (by omega)
  | done => trivial

/-- The call that ran keeps its relation to the values put into its channel. -/
theorem traceOk_self {site : Site} {visited : List String} {gs : List Goroutine} {i : Nat}
    {H : List (List Product)} {g g' : Goroutine}
    (hstep : PcStep site visited g.page g.depth g.pc g'.pc)
    (hin : (g'.inbox = g.inbox ∧ ∀ n ret, g.pc ≠ PC.recv (n + 1) ret) ∨
      ∃ n ret v, g.pc = PC.recv (n + 1) ret ∧ g.inbox = v :: g'.inbox ∧
        g'.pc = PC.recv n (appendUnique ret v))
    (hpage : g'.page = g.page) (hc : ChanOk gs i g) (ht : TraceOk site H g) :
    TraceOk site H g' := by
  unfold TraceOk at ht ⊢
  unfold ChanOk at hc
  rw [hpage]
  rcases hin with ⟨hin, hnr⟩ | ⟨n, ret, v, hpc, hin, hpc'⟩
  · rw [hin]
    generalize g.pc = a at hstep ht hc hnr
    generalize g'.pc = b at hstep
    cases hstep with
    | start => exact ht
    | exit hsite => exact ht
    | fetchInner doc hsite hd =>
      refine ⟨by rw [ht.1, ht.2], fun doc' hdoc' => ?_⟩
      rw [hsite] at hdoc'
      cases hdoc'
      rfl
    | fetchDeepest doc hsite hd =>
      refine ⟨ht.2, fun doc' hdoc' => ?_⟩
      rw [hsite] at hdoc'
      cases hdoc'
      rw [ht.1]
      rfl
    | checkSeen p todo unv ret hv => exact ht
    | checkNew p todo unv ret hv => exact ht
    | checkEndSome unv ret hlen => exact ht
    | checkEndNone unv ret hlen =>
      refine ⟨hc.2, fun doc hdoc => ?_⟩
      have hH : H = [] := by rw [← ht.1, hc.2]
      rw [hH]
      exact ht.2 doc hdoc
    | spawn p todo n ret => exact ht
    | spawnEnd n ret => exact ⟨[], by simpa using ht.1, by simpa using ht.2⟩
    | recv n ret v => exact absurd rfl (hnr n ret)
    | recvEnd ret =>
      obtain ⟨ds, h1, h2⟩ := ht
      have hnil : g.inbox = [] := List.length_eq_zero.mp (by simp only at hc; omega)
      rw [hnil, List.append_nil] at h1
      exact ⟨hnil, by rw [← h1]; exact h2⟩
    | send ret => trivial
  · rw [hpc']
    rw [hpc] at ht
    obtain ⟨ds, h1, h2⟩ := ht
    refine ⟨ds ++ [v], by rw [← h1, hin, List.append_assoc]; rfl, fun doc hdoc => ?_⟩
    rw [List.foldl_append, ← h2 doc hdoc]
    rfl

theorem traceInv_init (site : Site) (visited : List String) (root : String) (i : Nat) :
    TraceInv site root i [] (getProductsInit visited root) := by
  refine ⟨fun _ => rfl, ?_, ?_⟩
  · intro g hg
    cases i with
    | zero =>
      simp [getProductsInit] at hg
      subst hg
      exact ⟨rfl, rfl⟩
    | succ i => simp [getProductsInit] at hg
  · intro _ r hr
    simp [getProductsInit] at hr

theorem traceInv_step {site : Site} {root : String} {s s' : State} {i k : Nat}
    {H : List (List Product)} (hw : Wf site root s) (hc : ChanInv site s)
    (ht : TraceInv site root i H s) (h : step site s k = some s') :
    TraceInv site root i (H ++ sentTo s k i) s' := by
  obtain ⟨_, g, hg, hs⟩ := step_sound h
  have hpark : g.parent ≠ some k := fun e => by
    have := ((hw.each k g hg).2.2.2.2 k e).1
    omega
  have hnil_of_none : s.gs[i]? = none → sentTo s k i = [] := by
    intro hnone
    rcases sentTo_cases hg i with ⟨ret, hpc, hpar, _⟩ | ⟨_, e⟩
    · obtain ⟨_, h0, hh0, _⟩ := (hw.each k g hg).2.2.2.2 i hpar
      rw [hnone] at hh0
      cases hh0
    · exact e
  refine ⟨?_, ?_, ?_⟩
  · intro hnone'
    have hnone : s.gs[i]? = none := by
      cases hx : s.gs[i]? with
      | none => rfl
      | some h0 =>
        obtain ⟨h', hh', _⟩ := step_keeps hg hs i h0 hx
        rw [hnone'] at hh'
        cases hh'
    rw [hnil_of_none hnone, ht.absent hnone]
    rfl
  · intro gi' hi'
    rcases step_frame hg hs i gi' hi' with
      ⟨h0, hh0, f1, f2, f3, f4⟩ | ⟨hil, p, todo, n, ret, hpc, rfl⟩
    · have ht1 := ht.present h0 hh0
      by_cases hik : i = k
      · subst hik
        rw [hg] at hh0
        cases hh0
        have e : sentTo s i i = [] := by
          rcases sentTo_cases hg i with ⟨ret, hpc, hpar, _⟩ | ⟨_, e⟩
          · exact absurd hpar hpark
          · exact e
        rw [e, List.append_nil]
        exact traceOk_self (step_self hg hs gi' hi') (step_self_inbox hg hs hpark gi' hi') f1
          (hc.chan i g hg) ht1
      · obtain ⟨e1, e2⟩ := f4 hik
        rcases e2 with ⟨e2, hns⟩ | ⟨ret, hpc, hpar, e2⟩
        · have e : sentTo s k i = [] := by
            rcases sentTo_cases hg i with ⟨ret, hpc, hpar, _⟩ | ⟨_, e⟩
            · exact absurd hpar (hns ret hpc)
            · exact e
          rw [e, List.append_nil]
          unfold TraceOk at ht1 ⊢
          rw [e1, f1, e2]
          exact ht1
        · have e : sentTo s k i = [ret] := by
            rcases sentTo_cases hg i with ⟨ret', hpc', _, e⟩ | ⟨hns, _⟩
            · rw [hpc] at hpc'
              cases hpc'
              exact e
            · exact absurd hpar (hns ret hpc)
          rw [e]
          exact traceOk_deliver ht1 (hc.chan i h0 hh0)
            (pending_pos hg (counted_of_send hpc hpar)) e1 f1 e2
    · have hnone : s.gs[i]? = none := List.getElem?_eq_none (by omega)
      rw [hnil_of_none hnone, ht.absent hnone]
      exact ⟨rfl, rfl⟩
  · intro hi0 r hr doc hdoc
    subst hi0
    obtain ⟨g0, hg0, e1, _, _⟩ := hw.root_
    rcases step_result hs with ⟨hres, hns⟩ | ⟨ret, hpc, hpar, hres⟩
    · rw [hres] at hr
      have hd : isDone g0.pc = true := by
        have := hc.res g0 hg0
        rw [hr] at this
        exact this.symm
      have hch := hc.chan 0 g0 hg0
      unfold ChanOk at hch
      rw [(isDone_iff _).mp hd] at hch
      rw [sentTo_nil_of_pending hg hch.1, List.append_nil]
      exact ht.res rfl r hr doc hdoc
    · rw [hres] at hr
      cases hr
      have hk0 : k = 0 := (hw.each k g hg).2.2.2.1 hpar
      subst hk0
      rw [hg] at hg0
      cases hg0
      have ht1 := ht.present g hg
      unfold TraceOk at ht1
      rw [hpc] at ht1
      have e : sentTo s 0 0 = [] := by
        rcases sentTo_cases hg 0 with ⟨_, _, hp, _⟩ | ⟨_, e⟩
        · rw [hpar] at hp
          cases hp
        · exact e
      rw [e, List.append_nil]
      exact ht1.2 doc (e1 ▸ hdoc)

/-- Along every run, goroutine `i` stands in the relation `TraceOk` to the values
put into its channel since the start of the run. -/
theorem traceInv_run {site : Site} {root : String} {i : Nat} :
    ∀ (sched : List Nat) (s0 s : State) (H : List (List Product)),
      Wf site root s0 → ChanInv site s0 → TraceInv site root i H s0 →
      run site sched s0 = some s → TraceInv site root i (H ++ deliveries site i sched s0) s := by
  intro sched
  induction sched with
  | nil =>
    intro s0 s H _ _ ht h
    simp only [run] at h
    cases h
    simpa [deliveries] using ht
  | cons k sched ih =>
    intro s0 s H hw hc ht h
    simp only [run] at h
    cases hs1 : step site s0 k with
    | none =>
      rw [hs1] at h
      cases h
    | some s1 =>
      rw [hs1] at h
      have := ih s1 s (H ++ sentTo s0 k i) (wf_step hw hs1) (chanInv_step hw hc hs1)
        (traceInv_step hw hc ht hs1) h
      simp only [deliveries, hs1]
      rw [← List.append_assoc]
      exact this

theorem sentBy_cases {s : State} {k : Nat} {g : Goroutine} (hg : s.gs[k]? = some g) :
    (∃ ret, g.pc = PC.send ret ∧ sentBy s k = [ret]) ∨
      ((∀ ret, g.pc ≠ PC.send ret) ∧ sentBy s k = []) := by
  unfold sentBy
  rw [hg]
  obtain ⟨page, depth, parent, pc, inbox⟩ := g
  cases pc <;> simp

theorem pcStep_done {site : Site} {visited : List String} {page : String} {depth : Nat}
    {pc pc' : PC} (h : PcStep site visited page depth pc pc') :
    (pc' = PC.done ∧ ∃ ret, pc = PC.send ret) ∨
      (pc' ≠ PC.done ∧ pc ≠ PC.done ∧ ∀ ret, pc ≠ PC.send ret) := by
  cases h <;> simp

theorem retInv_init (site : Site) (visited : List String) (root : String) (i : Nat) :
    RetInv site i [] [] (getProductsInit visited root) := by
  refine ⟨fun _ => rfl, fun _ _ _ => rfl, ?_⟩
  intro g hg hpc
  cases i with
  | zero =>
    simp [getProductsInit] at hg
    subst hg
    cases hpc
  | succ i => simp [getProductsInit] at hg

theorem retInv_step {site : Site} {root : String} {s s' : State} {i k : Nat}
    {H R : List (List Product)} (hw : Wf site root s) (hc : ChanInv site s)
    (ht : TraceInv site root i H s) (hr : RetInv site i H R s)
    (h : step site s k = some s') :
    RetInv site i (H ++ sentTo s k i) (R ++ (if k = i then sentBy s k else [])) s' := by
  obtain ⟨_, g, hg, hs⟩ := step_sound h
  have hpark : g.parent ≠ some k := fun e => by
    have := ((hw.each k g hg).2.2.2.2 k e).1
    omega
  by_cases hki : k = i
  · subst hki
    have e0 : sentTo s k k = [] := by
      rcases sentTo_cases hg k with ⟨ret, hpc, hpar, _⟩ | ⟨_, e⟩
      · exact absurd hpar hpark
      · exact e
    simp only [if_true, e0, List.append_nil]
    obtain ⟨g', hg', f1, _, _⟩ := step_keeps hg hs k g hg
    have hpcs := pcStep_done (step_self hg hs g' hg')
    refine ⟨fun hn => (by rw [hg'] at hn; cases hn), ?_, ?_⟩
    · intro g1 hg1 hnd
      rw [hg'] at hg1
      cases hg1
      rcases hpcs with ⟨hd, _⟩ | ⟨_, hnd0, hns⟩
      · exact absurd hd hnd
      · rcases sentBy_cases hg with ⟨ret, hpc, _⟩ | ⟨_, e⟩
        · exact absurd hpc (hns ret)
        · rw [e, hr.running g hg hnd0]
          rfl
    · intro g1 hg1 hd doc hdoc
      rw [hg'] at hg1
      cases hg1
      rcases hpcs with ⟨_, ret, hpc⟩ | ⟨hnd, _, _⟩
      · rcases sentBy_cases hg with ⟨ret', hpc', e⟩ | ⟨hns, _⟩
        · rw [hpc] at hpc'
          cases hpc'
          have ht1 := ht.present g hg
          unfold TraceOk at ht1
          rw [hpc] at ht1
          rw [e, hr.running g hg (by rw [hpc]; simp), List.nil_append,
            ht1.2 doc (f1 ▸ hdoc)]
        · exact absurd hpc (hns ret)
      · exact absurd hd hnd
  · simp only [hki, if_false, List.append_nil]
    have hnone_keep : s'.gs[i]? = none → s.gs[i]? = none := by
      intro hnone'
      cases hx : s.gs[i]? with
      | none => rfl
      | some h0 =>
        obtain ⟨h', hh', _⟩ := step_keeps hg hs i h0 hx
        rw [hnone'] at hh'
        cases hh'
    refine ⟨fun hn => hr.absent (hnone_keep hn), ?_, ?_⟩
    · intro gi' hi' hnd
      rcases step_frame hg hs i gi' hi' with
        ⟨h0, hh0, _, _, _, f4⟩ | ⟨hil, _⟩
      · exact hr.running h0 hh0 (by rw [← (f4 (Ne.symm hki)).1]; exact hnd)
      · exact hr.absent (List.getElem?_eq_none (by omega))
    · intro gi' hi' hd doc hdoc
      rcases step_frame hg hs i gi' hi' with
        ⟨h0, hh0, f1, _, _, f4⟩ | ⟨hil, p, todo, n, ret, hpc, rfl⟩
      · have hd0 : h0.pc = PC.done := by rw [← (f4 (Ne.symm hki)).1]; exact hd
        have hch := hc.chan i h0 hh0
        unfold ChanOk at hch
        rw [hd0] at hch
        rw [sentTo_nil_of_pending hg hch.1, List.append_nil]
        exact hr.done h0 hh0 hd0 doc (f1 ▸ hdoc)
      · cases hd

/-- Along every run, goroutine `i` stands in the relations `TraceInv` and `RetInv` to
the values put into its channel and the values it has sent. -/
theorem retInv_run {site : Site} {root : String} {i : Nat} :
    ∀ (sched : List Nat) (s0 s : State) (H R : List (List Product)),
      Wf site root s0 → ChanInv site s0 → TraceInv site root i H s0 → RetInv site i H R s0 →
      run site sched s0 = some s →
      RetInv site i (H ++ deliveries site i sched s0) (R ++ returned site i sched s0) s := by
  intro sched
  induction sched with
  | nil =>
    intro s0 s H R _ _ _ hr h
    simp only [run] at h
    cases h
    simpa [deliveries, returned] using hr
  | cons k sched ih =>
    intro s0 s H R hw hc ht hr h
    simp only [run] at h
    cases hs1 : step site s0 k with
    | none =>
      rw [hs1] at h
      cases h
    | some s1 =>
      rw [hs1] at h
      have := ih s1 s (H ++ sentTo s0 k i) (R ++ (if k = i then sentBy s0 k else []))
        (wf_step hw hs1) (chanInv_step hw hc hs1) (traceInv_step hw hc ht hs1)
        (retInv_step hw hc ht hr hs1) h
      simp only [deliveries, returned, hs1]
      rw [← List.append_assoc, ← List.append_assoc]
      exact this

/-- C7, as stated, fails: on `forkSite` the root starts the calls for `b` and `c` in
this order, and they return `[pb]` and `[pc]`; when `c` sends first (`forkSchedCB`)
the root returns `[pr, pc, pb]`, which is not the merge in spawn order
`appendUnique (appendUnique own [pb]) [pc] = [pr, pb, pc]` that it returns when `b`
sends first (`forkSchedBC`). -/
theorem merge_follows_completion_order :
    (run forkSite forkSchedCB (getProductsInit [] "r")).map
        (fun t => (t.gs.map (fun g => g.page), t.result)) =
      some (["r", "b", "c"], some [itemProduct "pr", itemProduct "pc", itemProduct "pb"]) ∧
    deliveries forkSite 0 forkSchedCB (getProductsInit [] "r") =
      [[itemProduct "pc"], [itemProduct "pb"]] ∧
    (run forkSite forkSchedBC (getProductsInit [] "r")).map
        (fun t => (t.gs.map (fun g => g.page), t.result)) =
      some (["r", "b", "c"], some [itemProduct "pr", itemProduct "pb", itemProduct "pc"]) ∧
    appendUnique (appendUnique (ownProducts (listing ["b", "c"] ["pr"])) [itemProduct "pb"])
        [itemProduct "pc"] =
      [itemProduct "pr", itemProduct "pb", itemProduct "pc"] ∧
    [itemProduct "pr", itemProduct "pc", itemProduct "pb"] ≠
      [itemProduct "pr", itemProduct "pb", itemProduct "pc"] := by
  refine ⟨by decide, by decide, by decide, by decide, by decide⟩

/-- C7, amended: a `parsePage` call returns (sends) exactly one list: the page's own
products merged by `appendUnique` with the collections of its children in the
order in which the children sent them to its channel (completion order), own items
first, then `deliveries` folded from the left; the value of `getProducts` is that
list for the root. Every call gets there unless a fetch fails: a crawl takes at
most `callCost site 5 root + 1` steps, can take a step as long as it has neither
returned nor exited, can always be continued until it has returned or exited, and
when `getProducts` has returned every call has returned its list. -/
theorem parsePage_merge_order (site : Site) (visited : List String) (root : String)
    (sched : List Nat) (s : State)
    (h : run site sched (getProductsInit visited root) = some s) :
    (∀ (i : Nat) (g : Goroutine) (ret : List Product) (doc : Page), s.gs[i]? = some g →
      g.pc = PC.send ret → site g.page = some doc →
      ret = (deliveries site i sched (getProductsInit visited root)).foldl appendUnique
        (ownProducts doc)) ∧
    (∀ (i : Nat) (g : Goroutine) (doc : Page), s.gs[i]? = some g → g.pc = PC.done →
      site g.page = some doc →
      returned site i sched (getProductsInit visited root) =
        [(deliveries site i sched (getProductsInit visited root)).foldl appendUnique
          (ownProducts doc)]) ∧
    (∀ (i : Nat) (g : Goroutine), s.gs[i]? = some g → g.pc ≠ PC.done →
      returned site i sched (getProductsInit visited root) = []) ∧
    (∀ (r : List Product) (doc : Page), s.result = some r → site root = some doc →
      r = (deliveries site 0 sched (getProductsInit visited root)).foldl appendUnique
        (ownProducts doc)) ∧
    sched.length ≤ callCost site 5 root + 1 ∧
    (s.result = none → s.exited = false →
      ∃ (k : Nat) (s' : State), step site s k = some s') ∧
    (∃ (sched' : List Nat) (s' : State),
      run site (sched ++ sched') (getProductsInit visited root) = some s' ∧
        (s'.result.isSome = true ∨ s'.exited = true)) ∧
    (s.result.isSome = true → ∀ (j : Nat) (g : Goroutine), s.gs[j]? = some g →
      g.pc = PC.done ∧ ∃ doc, site g.page = some doc ∧
        returned site j sched (getProductsInit visited root) =
          [(deliveries site j sched (getProductsInit visited root)).foldl appendUnique
            (ownProducts doc)]) := by
  obtain ⟨hw, hc⟩ := inv_run h
  have key : ∀ i, TraceInv site root i
      (deliveries site i sched (getProductsInit visited root)) s := by
    intro i
    have := traceInv_run (i := i) sched _ s [] (wf_init site visited root)
      (chanInv_init site visited root) (traceInv_init site visited root i) h
    simpa using this
  have keyR : ∀ i, RetInv site i
      (deliveries site i sched (getProductsInit visited root))
      (returned site i sched (getProductsInit visited root)) s := by
    intro i
    have := retInv_run (i := i) sched _ s [] [] (wf_init site visited root)
      (chanInv_init site visited root) (traceInv_init site visited root i)
      (retInv_init site visited root i) h
    simpa using this
  refine ⟨?_, fun i g doc hg hpc hdoc => (keyR i).done g hg hpc doc hdoc,
    fun i g hg hnd => (keyR i).running g hg hnd, ?_, run_bounded h,
    fun hres hex => progress hw hc hex hres, run_completes h, ?_⟩
  · intro i g ret doc hg hpc hdoc
    have := (key i).present g hg
    unfold TraceOk at this
    rw [hpc] at this
    exact this.2 doc hdoc
  · intro r doc hr hdoc
    exact (key 0).res rfl r hr doc hdoc
  · intro hres j g hg
    have hd := all_done_of_result hw hc hres j g hg
    have hok := (hw.each j g hg).2.2.1
    rw [hd] at hok
    obtain ⟨doc, hdoc⟩ := hok
    exact ⟨hd, doc, hdoc, (keyR j).done g hg hd doc hdoc⟩

/-- An instance of the amended C7: under `forkSchedCB` the root merges `[pc]` before
`[pb]`, and returns that list. -/
theorem parsePage_merge_order_witness :
    run forkSite forkSchedCB (getProductsInit [] "r") = some forkFinalCB ∧
      forkFinalCB.result = some [itemProduct "pr", itemProduct "pc", itemProduct "pb"] ∧
      forkSite "r" = some (listing ["b", "c"] ["pr"]) ∧
      [itemProduct "pr", itemProduct "pc", itemProduct "pb"] =
        (deliveries forkSite 0 forkSchedCB (getProductsInit [] "r")).foldl appendUnique
          (ownProducts (listing ["b", "c"] ["pr"])) ∧
      forkFinalCB.gs[0]? =
        some { page := "r", depth := 0, parent := none, pc := PC.done, inbox := [] } ∧
      returned forkSite 0 forkSchedCB (getProductsInit [] "r") =
        [(deliveries forkSite 0 forkSchedCB (getProductsInit [] "r")).foldl appendUnique
          (ownProducts (listing ["b", "c"] ["pr"]))] :=
  ⟨by decide, rfl, rfl,
    (parsePage_merge_order forkSite [] "r" forkSchedCB forkFinalCB (by decide)).2.2.2.1
      [itemProduct "pr", itemProduct "pc", itemProduct "pb"] (listing ["b", "c"] ["pr"]) rfl rfl,
    rfl,
    (parsePage_merge_order forkSite [] "r" forkSchedCB forkFinalCB (by decide)).2.1 0
      { page := "r", depth := 0, parent := none, pc := PC.done, inbox := [] }
      (listing ["b", "c"] ["pr"]) rfl rfl rfl⟩

end Scraper
